import Mathlib

/-!
# Verification of the compact radix tree duplicate-detection engine

A shallow embedding of `UniqueNumberCounter.cpp`: the compact radix tree
engine (`CompactRadixTreeAlgorithm`), the set-based baseline (`SetAlgorithm`),
the three child-index strategies (`UnorderedEdges`, `OrderedEdges`,
`IndexedEdges`) and the validating wrapper (`UniqueNumberCounter`).

Strings are modelled as `List Char`.  The C++ code mutates a pointer-linked
tree in place; the embedding renders each mutating operation as a function
returning the updated tree (path copying), which is the standard functional
reading of single-owner imperative tree updates.
-/

/-- A value in the stream, `std::string` in the source. -/
abbrev Label := List Char

/-- `Edge::GetNumCommonChars`: the number of leading characters shared by the
edge value and the remainder (the loop at lines 122-126 of the source, which
walks while both strings are in range and the characters agree). -/
def GetNumCommonChars : Label → Label → Nat
  | a :: as, b :: bs => if a = b then GetNumCommonChars as bs + 1 else 0
  | _, _ => 0

/-- A node of the compact radix tree: it owns a collection of edges, each
edge being a label (`Edge::m_Value`) together with the owned child node
(`Edge::m_Next`). -/
inductive Node where
  | mk : List (Label × Node) → Node
deriving Inhabited

/-- An edge of the tree: the transition label and the owned child node. -/
abbrev Edge := Label × Node

/-- The edge list owned by a node. -/
def Node.edges : Node → List Edge
  | .mk es => es

/-- `Edge::Eat`: consume `numCommonChars` characters of `remainder` along an
edge.  Returns the updated edge, the updated remainder, whether `isUnique`
was set, and the next node to continue at (`none` exactly when the edge was
split, in which case the C++ function returns `NULL`). -/
def Edge.Eat (numCommonChars : Nat) (e : Edge) (remainder : Label) :
    Edge × Label × Bool × Option Node :=
  if numCommonChars = e.1.length then
    -- the edge matches the beginning of remainder: traverse it, no split
    (e, remainder.drop numCommonChars, false, some e.2)
  else
    -- partial match: split.  The edge keeps the common prefix; a new
    -- intermediate node owns the remainder of the original value (with the
    -- original child) and the remainder of the suffix (with a fresh node).
    ((e.1.take numCommonChars,
      Node.mk [(e.1.drop numCommonChars, e.2), (remainder.drop numCommonChars, Node.mk [])]),
     [], true, none)

/-- `UnorderedEdges::Find`: scan the edges in order, returning the first edge
with a positive number of common characters together with that count, or
`(0, none)` when no edge shares a leading character. -/
def UnorderedEdges.Find : List Edge → Label → Nat × Option Edge
  | [], _ => (0, none)
  | e :: rest, remainder =>
    let k := GetNumCommonChars e.1 remainder
    if 0 < k then (k, some e) else UnorderedEdges.Find rest remainder

/-- The functional rendering of the insertion loop
(`CompactRadixTreeAlgorithm::IsUnique` at lines 52-60 driving `Node::Eat` at
lines 434-453 and `Edge::Eat` at lines 140-178), acting on one node's edge
list.  Walking the list is `UnorderedEdges::Find` inlined with the update of
the found edge; reaching the end of the list with no match is the
new-edge branch of `Node::Eat` (the container `Add` appends); a full match
recurses into the child (the loop continuing at the next node); a partial
match splits the edge as in `Edge::Eat`. -/
def Node.EatAll : List Edge → Label → List Edge × Bool
  | [], remainder =>
    -- no edge shared a leading character: add a brand-new edge
    ([(remainder, Node.mk [])], true)
  | (l, c) :: rest, remainder =>
    let k := GetNumCommonChars l remainder
    if hk : k = 0 then
      -- this edge shares nothing: keep it and keep scanning
      let p := Node.EatAll rest remainder
      ((l, c) :: p.1, p.2)
    else if hl : k = l.length then
      -- full match: follow the edge, continue at the child
      let rem := remainder.drop k
      if rem = [] then ((l, c) :: rest, false)
      else
        let p := Node.EatAll c.edges rem
        ((l, Node.mk p.1) :: rest, p.2)
    else
      -- partial match: split this edge, remainder fully consumed, unique
      ((l.take k,
        Node.mk [(l.drop k, c), (remainder.drop k, Node.mk [])]) :: rest, true)
termination_by es r => (List.length r, List.length es)
decreasing_by
  · exact Prod.Lex.right _ (Nat.lt_succ_self _)
  · apply Prod.Lex.left
    have hk1 : 0 < GetNumCommonChars l remainder := Nat.pos_of_ne_zero hk
    have hr : 0 < remainder.length := by
      cases remainder with
      | nil => cases l <;> simp [GetNumCommonChars] at hk1
      | cons a as => simp
    simp only [List.length_drop]
    omega

/-- `CompactRadixTreeAlgorithm::IsUnique`: the `while (!remainder.empty())`
loop starting at the root; returns the updated tree and the `isUnique`
flag (initially `false`). -/
def CompactRadixTreeAlgorithm.IsUnique (root : Node) (value : Label) : Node × Bool :=
  match value with
  | [] => (root, false)
  | v => ((Node.mk (Node.EatAll root.edges v).1), (Node.EatAll root.edges v).2)

/-- `CompactRadixTreeAlgorithm::Reset` (and the constructor): a fresh empty
root node. -/
def CompactRadixTreeAlgorithm.Reset : Node := Node.mk []

/-- Run the radix-tree engine over a whole input sequence, collecting the
boolean results. -/
def CompactRadixTreeAlgorithm.run (root : Node) : List Label → List Bool × Node
  | [] => ([], root)
  | v :: vs =>
    let p := CompactRadixTreeAlgorithm.IsUnique root v
    let q := CompactRadixTreeAlgorithm.run p.1 vs
    (p.2 :: q.1, q.2)

/-- `SetAlgorithm`: the baseline detector backed by `std::set<std::string>`;
`IsUnique` is `insert` reporting whether the value was newly inserted.  The
set is modelled as the list of distinct values inserted so far. -/
def SetAlgorithm.IsUnique (seen : List Label) (number : Label) : List Label × Bool :=
  if number ∈ seen then (seen, false) else (number :: seen, true)

/-- `SetAlgorithm::Reset`: clear the set. -/
def SetAlgorithm.Reset : List Label := []

/-- Run the set-based baseline over a whole input sequence. -/
def SetAlgorithm.run (seen : List Label) : List Label → List Bool × List Label
  | [] => ([], seen)
  | v :: vs =>
    let p := SetAlgorithm.IsUnique seen v
    let q := SetAlgorithm.run p.1 vs
    (p.2 :: q.1, q.2)

/-- Pure lookup derived from the traversal of `Node::Eat`: does the tree
consume `remainder` entirely through full edge matches (no split, no new
edge)?  `IsUnique` returns `false` exactly on the values the tree consumes
this way. -/
def Node.Consumes : List Edge → Label → Bool
  | [], _ => false
  | (l, c) :: rest, remainder =>
    let k := GetNumCommonChars l remainder
    if hk : k = 0 then Node.Consumes rest remainder
    else if k = l.length then
      if remainder.drop k = [] then true else Node.Consumes c.edges (remainder.drop k)
    else false
termination_by es r => (List.length r, List.length es)
decreasing_by
  · exact Prod.Lex.right _ (Nat.lt_succ_self _)
  · apply Prod.Lex.left
    have hk1 : 0 < GetNumCommonChars l remainder := Nat.pos_of_ne_zero hk
    have hr : 0 < remainder.length := by
      cases remainder with
      | nil => cases l <;> simp [GetNumCommonChars] at hk1
      | cons a as => simp
    simp only [List.length_drop]
    omega

/-- `std::string::operator<`: strict lexicographic order on labels. -/
def LexLt : Label → Label → Bool
  | [], [] => false
  | [], _ :: _ => true
  | _ :: _, [] => false
  | a :: as, b :: bs => if a < b then true else if b < a then false else LexLt as bs

/-- The least edge by label; `MinEdgeByLabel (es.filter (LexLt r ·.1))` is
`std::map::upper_bound r` on a map keyed by edge label. -/
def MinEdgeByLabel : List Edge → Option Edge
  | [] => none
  | e :: rest =>
    match MinEdgeByLabel rest with
    | none => some e
    | some m => if LexLt e.1 m.1 then some e else some m

/-- The greatest edge by label; `MaxEdgeByLabel (es.filter (!LexLt r ·.1))`
is the predecessor of `std::map::upper_bound r` (the last key `≤ r`). -/
def MaxEdgeByLabel : List Edge → Option Edge
  | [] => none
  | e :: rest =>
    match MaxEdgeByLabel rest with
    | none => some e
    | some m => if LexLt m.1 e.1 then some e else some m

/-- `OrderedEdges::Find` on a `std::map` keyed by label: check the edge at
`upper_bound(remainder)` (the least label strictly greater than the
remainder); if that has no common characters, check the edge just before it
in sort order (the greatest label less than or equal to the remainder). -/
def OrderedEdges.Find (es : List Edge) (remainder : Label) : Nat × Option Edge :=
  let succ :=
    match MinEdgeByLabel (es.filter (fun e => LexLt remainder e.1)) with
    | some e =>
      let k := GetNumCommonChars e.1 remainder
      if 0 < k then (k, some e) else (0, none)
    | none => (0, none)
  if 0 < succ.1 then succ
  else
    match MaxEdgeByLabel (es.filter (fun e => !LexLt remainder e.1)) with
    | some e =>
      let k := GetNumCommonChars e.1 remainder
      if 0 < k then (k, some e) else (0, none)
    | none => (0, none)

/-- `IndexedEdges::Find` on the fixed 10-slot array indexed by leading
digit: `Add` stores each edge in the slot of its label's first character, so
the slot `remainder[0] - '0'` holds exactly the edge whose label starts with
the remainder's first character; the array access is modelled by locating
that edge. -/
def IndexedEdges.Find (es : List Edge) (remainder : Label) : Nat × Option Edge :=
  match es.find? (fun e => e.1.head? == remainder.head?) with
  | some e => (GetNumCommonChars e.1 remainder, some e)
  | none => (0, none)

/-- Replace the first edge carrying the given label (the in-place update of
the edge the strategy's `Find` returned). -/
def ReplaceEdge (es : List Edge) (lab : Label) (e : Edge) : List Edge :=
  match es with
  | [] => []
  | f :: rest => if f.1 = lab then e :: rest else f :: ReplaceEdge rest lab e

/-- The insertion loop of `IsUnique`/`Node::Eat`/`Edge::Eat` parameterised
by the child-index strategy's `Find`, as in the `typedef ... Edges` at line
476 of the source: ask `find` for the matching edge and common-character
count, then follow (recursing at the child), split, or add a new edge. -/
def Node.EatAllWith (find : List Edge → Label → Nat × Option Edge) :
    List Edge → Label → List Edge × Bool
  | es, remainder =>
    match find es remainder with
    | (k, some e) =>
      if hk : k = 0 then (es ++ [(remainder, Node.mk [])], true)
      else if k = e.1.length then
        if hrem : remainder.drop k = [] then (es, false)
        else
          let p := Node.EatAllWith find e.2.edges (remainder.drop k)
          (ReplaceEdge es e.1 (e.1, Node.mk p.1), p.2)
      else
        (ReplaceEdge es e.1
          (e.1.take k, Node.mk [(e.1.drop k, e.2), (remainder.drop k, Node.mk [])]), true)
    | (_, none) => (es ++ [(remainder, Node.mk [])], true)
termination_by es r => List.length r
decreasing_by
  have h1 : 0 < (remainder.drop k).length := List.length_pos.mpr hrem
  simp only [List.length_drop] at h1 ⊢
  omega

/-- `IsUnique` running on top of a chosen child-index strategy. -/
def CompactRadixTreeAlgorithm.IsUniqueWith (find : List Edge → Label → Nat × Option Edge)
    (root : Node) (value : Label) : Node × Bool :=
  match value with
  | [] => (root, false)
  | v => ((Node.mk (Node.EatAllWith find root.edges v).1), (Node.EatAllWith find root.edges v).2)

/-- Running a whole input sequence on top of a chosen child-index
strategy. -/
def CompactRadixTreeAlgorithm.runWith (find : List Edge → Label → Nat × Option Edge)
    (root : Node) : List Label → List Bool × Node
  | [] => ([], root)
  | v :: vs =>
    let p := CompactRadixTreeAlgorithm.IsUniqueWith find root v
    let q := CompactRadixTreeAlgorithm.runWith find p.1 vs
    (p.2 :: q.1, q.2)

/-- The structural invariant on one node's edges, extended recursively to
the whole tree: among the edges owned by one node, no two labels share a
non-empty common prefix. -/
def Node.NoSharedPrefix : Node → Bool
  | .mk [] => true
  | .mk ((l, c) :: rest) =>
    rest.all (fun e => GetNumCommonChars l e.1 == 0) &&
      Node.NoSharedPrefix c && Node.NoSharedPrefix (Node.mk rest)

/-- All edge labels appearing anywhere in the tree. -/
def Node.Labels : Node → List Label
  | .mk [] => []
  | .mk ((l, c) :: rest) => l :: (Node.Labels c ++ Node.Labels (Node.mk rest))

/-- Depth regularity of a tree fed only fixed-width values: at a node
reached after consuming all but `m` characters, each edge label is non-empty
and at most `m` characters long, and its child is regular for the leftover
width. -/
def Node.UniformDepth : Node → Nat → Bool
  | .mk [], _ => true
  | .mk ((l, c) :: rest), m =>
    !l.isEmpty && decide (l.length ≤ m) && Node.UniformDepth c (m - l.length) &&
      Node.UniformDepth (Node.mk rest) m

/-- `Edge::GetNumCommonChars` with its argument check: raises
`invalid remainder` (via `RaiseError`, i.e. a thrown `runtime_error`) when
the remainder is empty. -/
def GetNumCommonCharsE (value remainder : Label) : Except String Nat :=
  if remainder = [] then .error "invalid remainder"
  else .ok (GetNumCommonChars value remainder)

/-- `Edge::Eat` with its argument checks: raises on a zero or out-of-range
common-character count and on an empty remainder. -/
def Edge.EatE (numCommonChars : Nat) (e : Edge) (remainder : Label) :
    Except String (Edge × Label × Bool × Option Node) :=
  if numCommonChars = 0 ∨ min e.1.length remainder.length < numCommonChars then
    .error "invalid numCommonChars"
  else if remainder = [] then .error "invalid remainder"
  else .ok (Edge.Eat numCommonChars e remainder)

/-- `UnorderedEdges::Find` propagating the argument check performed by the
`GetNumCommonChars` call on each scanned edge. -/
def UnorderedEdges.FindE : List Edge → Label → Except String (Nat × Option Edge)
  | [], _ => .ok (0, none)
  | e :: rest, remainder =>
    match GetNumCommonCharsE e.1 remainder with
    | .error msg => .error msg
    | .ok k => if 0 < k then .ok (k, some e) else UnorderedEdges.FindE rest remainder

/-- The insertion loop with every `RaiseError` branch of `Node::Eat` and
`Edge::Eat` made explicit: `Node::Eat` first checks that the remainder is
non-empty, `Find` checks it again on each edge, and `Edge::Eat` checks the
common-character count and the remainder.  The branch bodies mirror
`Edge::Eat` (they are its full-match and split branches, inlined so that the
consumed remainder is visible to the recursion).  A positive count with no
edge would be a null dereference in the C++; `UnorderedEdges.FindE` never
produces it (`UnorderedEdges.FindE_pos_some`). -/
def Node.EatAllE : List Edge → Label → Except String (List Edge × Bool)
  | es, remainder =>
    if remainder = [] then .error "invalid remainder"
    else
      match UnorderedEdges.FindE es remainder with
      | .error msg => .error msg
      | .ok (k, some e) =>
        if hk : 0 < k then
          if k = 0 ∨ min e.1.length remainder.length < k then .error "invalid numCommonChars"
          else if k = e.1.length then
            if hrem : remainder.drop k = [] then .ok (es, false)
            else
              match Node.EatAllE e.2.edges (remainder.drop k) with
              | .error msg => .error msg
              | .ok p => .ok (ReplaceEdge es e.1 (e.1, Node.mk p.1), p.2)
          else
            .ok (ReplaceEdge es e.1
              (e.1.take k, Node.mk [(e.1.drop k, e.2), (remainder.drop k, Node.mk [])]), true)
        else .ok (es ++ [(remainder, Node.mk [])], true)
      | .ok (_, none) => .ok (es ++ [(remainder, Node.mk [])], true)
termination_by es r => List.length r
decreasing_by
  have h1 : 0 < (remainder.drop k).length := List.length_pos.mpr hrem
  simp only [List.length_drop] at h1 ⊢
  omega

/-- `IsUnique` with the `RaiseError` branches made explicit. -/
def CompactRadixTreeAlgorithm.IsUniqueE (root : Node) (value : Label) :
    Except String (Node × Bool) :=
  match value with
  | [] => .ok (root, false)
  | v =>
    match Node.EatAllE root.edges v with
    | .error msg => .error msg
    | .ok p => .ok (Node.mk p.1, p.2)

/-- Running a whole input sequence through the checked engine, stopping at
the first raised error. -/
def CompactRadixTreeAlgorithm.runE (root : Node) : List Label → Except String (List Bool × Node)
  | [] => .ok ([], root)
  | v :: vs =>
    match CompactRadixTreeAlgorithm.IsUniqueE root v with
    | .error msg => .error msg
    | .ok p =>
      match CompactRadixTreeAlgorithm.runE p.1 vs with
      | .error msg => .error msg
      | .ok q => .ok (p.2 :: q.1, q.2)

/-- The operations of an `IUniqueNumberAlgorithm` instance over detector
state `σ`: both the radix-tree engine and the set baseline provide these. -/
structure AlgorithmOps (σ : Type) where
  Reset : σ → σ
  IsUnique : σ → Label → σ × Bool

/-- The state of a `UniqueNumberCounter`. -/
structure UniqueNumberCounter (σ : Type) where
  NumExpectedDigits : Nat
  Algorithm : AlgorithmOps σ
  AlgorithmState : σ
  Count : Nat

/-- The `UniqueNumberCounter` constructor: rejects a null algorithm and a
zero expected digit count (both checks precede the `Reset` call, so a failed
construction never touches the detector), then resets the algorithm. -/
def UniqueNumberCounter.Construct (algorithm : Option (AlgorithmOps σ × σ))
    (numExpectedDigits : Nat) : Except String (UniqueNumberCounter σ) :=
  match algorithm with
  | none => .error "NULL ptr"
  | some (ops, st) =>
    if numExpectedDigits = 0 then .error "numExpectedDigits cannot be zero"
    else .ok ⟨numExpectedDigits, ops, ops.Reset st, 0⟩

/-- `UniqueNumberCounter::m_CheckNumber`: raises when the length differs
from the expected digit count or some character is not a digit. -/
def UniqueNumberCounter.CheckNumber (counter : UniqueNumberCounter σ) (number : Label) :
    Except String Unit :=
  if number.length ≠ counter.NumExpectedDigits then .error "Invalid number of digits"
  else if number.all Char.isDigit then .ok ()
  else .error "Not a number"

/-- `UniqueNumberCounter::ProcessNumber`: validate, then forward to the
algorithm's `IsUnique` and increment the count when it reports `true`. -/
def UniqueNumberCounter.ProcessNumber (counter : UniqueNumberCounter σ) (number : Label) :
    Except String (UniqueNumberCounter σ) :=
  match counter.CheckNumber number with
  | .error msg => .error msg
  | .ok _ =>
    let p := counter.Algorithm.IsUnique counter.AlgorithmState number
    .ok { counter with
          AlgorithmState := p.1
          Count := if p.2 then counter.Count + 1 else counter.Count }

/-! ## Basic facts about `GetNumCommonChars` -/

theorem GetNumCommonChars_nil_left (r : Label) : GetNumCommonChars [] r = 0 := by
  cases r <;> rfl

theorem GetNumCommonChars_nil_right (l : Label) : GetNumCommonChars l [] = 0 := by
  cases l <;> rfl

theorem GetNumCommonChars_cons (a b : Char) (as bs : Label) :
    GetNumCommonChars (a :: as) (b :: bs) =
      if a = b then GetNumCommonChars as bs + 1 else 0 := rfl

theorem GetNumCommonChars_le_left (l r : Label) : GetNumCommonChars l r ≤ l.length := by
  induction l generalizing r with
  | nil => simp [GetNumCommonChars_nil_left]
  | cons a as ih =>
    cases r with
    | nil => simp [GetNumCommonChars_nil_right]
    | cons b bs =>
      rw [GetNumCommonChars_cons]
      split
      · simpa using Nat.succ_le_succ (ih bs)
      · simp

theorem GetNumCommonChars_le_right (l r : Label) : GetNumCommonChars l r ≤ r.length := by
  induction l generalizing r with
  | nil => simp [GetNumCommonChars_nil_left]
  | cons a as ih =>
    cases r with
    | nil => simp [GetNumCommonChars_nil_right]
    | cons b bs =>
      rw [GetNumCommonChars_cons]
      split
      · simpa using Nat.succ_le_succ (ih bs)
      · simp

theorem GetNumCommonChars_pos_iff (l r : Label) :
    0 < GetNumCommonChars l r ↔ l ≠ [] ∧ l.head? = r.head? := by
  cases l with
  | nil => simp [GetNumCommonChars_nil_left]
  | cons a as =>
    cases r with
    | nil => simp [GetNumCommonChars_nil_right]
    | cons b bs =>
      rw [GetNumCommonChars_cons]
      by_cases h : a = b <;> simp [h]

theorem GetNumCommonChars_comm (l r : Label) :
    GetNumCommonChars l r = GetNumCommonChars r l := by
  induction l generalizing r with
  | nil => simp [GetNumCommonChars_nil_left, GetNumCommonChars_nil_right]
  | cons a as ih =>
    cases r with
    | nil => simp [GetNumCommonChars_nil_left, GetNumCommonChars_nil_right]
    | cons b bs =>
      rw [GetNumCommonChars_cons, GetNumCommonChars_cons]
      by_cases h : a = b
      · subst h
        simp [ih]
      · have h2 : ¬b = a := fun h2 => h h2.symm
        simp [h, h2]

theorem GetNumCommonChars_take (k : Nat) (l r : Label) :
    GetNumCommonChars (l.take k) r = min (GetNumCommonChars l r) k := by
  induction l generalizing r k with
  | nil => simp [GetNumCommonChars_nil_left]
  | cons a as ih =>
    cases k with
    | zero => simp [GetNumCommonChars_nil_left]
    | succ k =>
      cases r with
      | nil => simp [GetNumCommonChars_nil_right]
      | cons b bs =>
        rw [List.take_succ_cons, GetNumCommonChars_cons, GetNumCommonChars_cons]
        split
        · rw [ih, Nat.succ_min_succ]
        · simp

theorem GetNumCommonChars_drop (k : Nat) (l r : Label)
    (h : k ≤ GetNumCommonChars l r) :
    GetNumCommonChars (l.drop k) (r.drop k) = GetNumCommonChars l r - k := by
  induction k generalizing l r with
  | zero => simp
  | succ k ih =>
    cases l with
    | nil => simp [GetNumCommonChars_nil_left] at h
    | cons a as =>
      cases r with
      | nil => simp [GetNumCommonChars_nil_right] at h
      | cons b bs =>
        rw [GetNumCommonChars_cons] at h ⊢
        by_cases hab : a = b
        · simp only [hab, if_true] at h ⊢
          rw [List.drop_succ_cons, List.drop_succ_cons, ih as bs (by omega)]
          omega
        · simp [hab] at h

theorem GetNumCommonChars_eq_left_iff (l r : Label) :
    GetNumCommonChars l r = l.length ↔ l <+: r := by
  induction l generalizing r with
  | nil => simp [GetNumCommonChars_nil_left]
  | cons a as ih =>
    cases r with
    | nil =>
      simp [GetNumCommonChars_nil_right]
    | cons b bs =>
      rw [GetNumCommonChars_cons]
      by_cases h : a = b
      · subst h
        simp [ih]
      · simp [h]

theorem GetNumCommonChars_self (l : Label) : GetNumCommonChars l l = l.length :=
  (GetNumCommonChars_eq_left_iff l l).mpr (List.prefix_refl l)

/-- At a strict partial match, the characters just past the shared prefix
differ (or the remainder is exhausted): dropping the shared prefix from both
sides leaves strings with no common characters. -/
theorem GetNumCommonChars_drop_self (l r : Label) :
    GetNumCommonChars (l.drop (GetNumCommonChars l r)) (r.drop (GetNumCommonChars l r)) = 0 := by
  have h := GetNumCommonChars_drop (GetNumCommonChars l r) l r (Nat.le_refl _)
  omega

/-- A value whose common-character count against `l` equals `l`'s length
decomposes as `l` followed by the rest. -/
theorem GetNumCommonChars_full_decomp (l r : Label)
    (h : GetNumCommonChars l r = l.length) : l ++ r.drop l.length = r := by
  obtain ⟨t, ht⟩ := (GetNumCommonChars_eq_left_iff l r).mp h
  subst ht
  rw [List.drop_left]

/-- Two strings agree on their first `k` characters whenever they have at
least `k` common characters. -/
theorem GetNumCommonChars_take_eq (k : Nat) (l r : Label)
    (h : k ≤ GetNumCommonChars l r) : l.take k = r.take k := by
  induction k generalizing l r with
  | zero => simp
  | succ k ih =>
    cases l with
    | nil => simp [GetNumCommonChars_nil_left] at h
    | cons a as =>
      cases r with
      | nil => simp [GetNumCommonChars_nil_right] at h
      | cons b bs =>
        rw [GetNumCommonChars_cons] at h
        by_cases hab : a = b
        · simp only [hab, if_true] at h
          rw [hab, List.take_succ_cons, List.take_succ_cons, ih as bs (by omega)]
        · simp [hab] at h

/-! ## Step equations for the insertion loop and the pure lookup -/

theorem Node.Consumes_nil (r : Label) : Node.Consumes [] r = false := by
  simp [Node.Consumes]

theorem Node.Consumes_cons (l : Label) (c : Node) (rest : List Edge) (r : Label) :
    Node.Consumes ((l, c) :: rest) r =
      (if GetNumCommonChars l r = 0 then Node.Consumes rest r
       else if GetNumCommonChars l r = l.length then
         if r.drop (GetNumCommonChars l r) = [] then true
         else Node.Consumes c.edges (r.drop (GetNumCommonChars l r))
       else false) := by
  rw [Node.Consumes]
  simp only [dite_eq_ite]

theorem Node.EatAll_nil (r : Label) :
    Node.EatAll [] r = ([(r, Node.mk [])], true) := by
  simp [Node.EatAll]

theorem Node.EatAll_cons (l : Label) (c : Node) (rest : List Edge) (r : Label) :
    Node.EatAll ((l, c) :: rest) r =
      (if GetNumCommonChars l r = 0 then
         ((l, c) :: (Node.EatAll rest r).1, (Node.EatAll rest r).2)
       else if GetNumCommonChars l r = l.length then
         if r.drop (GetNumCommonChars l r) = [] then ((l, c) :: rest, false)
         else ((l, Node.mk (Node.EatAll c.edges (r.drop (GetNumCommonChars l r))).1) :: rest,
               (Node.EatAll c.edges (r.drop (GetNumCommonChars l r))).2)
       else
         ((l.take (GetNumCommonChars l r),
           Node.mk [(l.drop (GetNumCommonChars l r), c),
                    (r.drop (GetNumCommonChars l r), Node.mk [])]) :: rest, true)) := by
  rw [Node.EatAll]
  simp only [dite_eq_ite]

/-! ## How a split changes the pure lookup -/

/-- Splitting an edge with shared-prefix length `n` against inserted value
`v` adds exactly `v` to the values consumed through that edge, as observed
on values at least as long as `v`. -/
theorem Node.Consumes_split (l : Label) (c : Node) (rest : List Edge) (v w : Label) (n : Nat)
    (hn : GetNumCommonChars l v = n) (hn0 : n ≠ 0) (hnl : n < l.length)
    (hw : v.length ≤ w.length) :
    Node.Consumes ((l.take n, Node.mk [(l.drop n, c), (v.drop n, Node.mk [])]) :: rest) w
      = (Node.Consumes ((l, c) :: rest) w || decide (w = v)) := by
  have hkv : n ≤ v.length := hn ▸ GetNumCommonChars_le_right l v
  have hlen_take : (l.take n).length = n := by
    rw [List.length_take]
    omega
  by_cases hw0 : GetNumCommonChars l w = 0
  · have hwA : GetNumCommonChars (l.take n) w = 0 := by
      rw [GetNumCommonChars_take, hw0]
      simp
    have hwv : ¬w = v := by
      intro h
      subst h
      omega
    rw [Node.Consumes_cons, if_pos hwA, Node.Consumes_cons, if_pos hw0]
    simp [hwv]
  · by_cases hwk : GetNumCommonChars l w < n
    · have hwA : GetNumCommonChars (l.take n) w = GetNumCommonChars l w := by
        rw [GetNumCommonChars_take]
        omega
      have hcondA : ¬GetNumCommonChars (l.take n) w = 0 := by
        rw [hwA]
        exact hw0
      have hcondB : ¬GetNumCommonChars (l.take n) w = (l.take n).length := by
        rw [hwA, hlen_take]
        omega
      have hcondC : ¬GetNumCommonChars l w = l.length := by omega
      have hwv : ¬w = v := by
        intro h
        subst h
        omega
      rw [Node.Consumes_cons, if_neg hcondA, if_neg hcondB,
        Node.Consumes_cons, if_neg hw0, if_neg hcondC]
      simp [hwv]
    · -- at least the whole shared prefix matches: full match on the new edge
      have hnkw : n ≤ GetNumCommonChars l w := by omega
      have hTn : GetNumCommonChars (l.take n) w = n := by
        rw [GetNumCommonChars_take]
        omega
      have hnne : ¬(n = 0) := hn0
      rw [Node.Consumes_cons, hTn, if_neg hnne, if_pos hlen_take.symm]
      by_cases hw2 : w.drop n = []
      · rw [if_pos hw2]
        have hwlen : w.length ≤ n := List.drop_eq_nil_iff.mp hw2
        have h1 : l.take n = w.take n := GetNumCommonChars_take_eq n l w hnkw
        have h2 : l.take n = v.take n := GetNumCommonChars_take_eq n l v (le_of_eq hn.symm)
        have hwtake : w.take n = w := by
          conv_rhs => rw [← List.take_append_drop n w]
          rw [hw2, List.append_nil]
        have hvtake : v.take n = v := by
          have hvd : v.drop n = [] := List.drop_eq_nil_iff.mpr (by omega)
          conv_rhs => rw [← List.take_append_drop n v]
          rw [hvd, List.append_nil]
        have hwv : w = v := by rw [← hwtake, ← h1, h2, hvtake]
        rw [hwv]
        simp
      · rw [if_neg hw2]
        have hmid : (Node.mk [(l.drop n, c), (v.drop n, Node.mk [])]).edges
            = [(l.drop n, c), (v.drop n, Node.mk [])] := rfl
        rw [hmid]
        have hdrop1 : GetNumCommonChars (l.drop n) (w.drop n) = GetNumCommonChars l w - n := by
          rw [← hn] at hnkw ⊢
          exact GetNumCommonChars_drop _ l w hnkw
        by_cases heq : GetNumCommonChars l w = n
        · -- the original edge was a strict partial match for w as well
          have h20 : GetNumCommonChars (l.drop n) (w.drop n) = 0 := by omega
          have hRHS0 : ¬GetNumCommonChars l w = l.length := by omega
          rw [Node.Consumes_cons, if_pos h20]
          by_cases hvd : v.drop n = []
          · have h30 : GetNumCommonChars (v.drop n) (w.drop n) = 0 := by
              rw [hvd]
              exact GetNumCommonChars_nil_left _
            have hwv : ¬w = v := by
              intro h
              subst h
              exact hw2 hvd
            rw [Node.Consumes_cons, if_pos h30, Node.Consumes_nil,
              Node.Consumes_cons, if_neg hw0, if_neg hRHS0]
            simp [hwv]
          · by_cases h30 : GetNumCommonChars (v.drop n) (w.drop n) = 0
            · have hwv : ¬w = v := by
                intro h
                subst h
                rw [GetNumCommonChars_self] at h30
                exact hvd (List.length_eq_zero.mp h30)
              rw [Node.Consumes_cons, if_pos h30, Node.Consumes_nil,
                Node.Consumes_cons, if_neg hw0, if_neg hRHS0]
              simp [hwv]
            · by_cases h3l : GetNumCommonChars (v.drop n) (w.drop n) = (v.drop n).length
              · by_cases h3rem : (w.drop n).drop (GetNumCommonChars (v.drop n) (w.drop n)) = []
                · have hpre : v.drop n <+: w.drop n :=
                    (GetNumCommonChars_eq_left_iff _ _).mp h3l
                  have hlen3 : (w.drop n).length ≤ (v.drop n).length := by
                    have hd := List.drop_eq_nil_iff.mp h3rem
                    have hle := GetNumCommonChars_le_left (v.drop n) (w.drop n)
                    omega
                  have heq3 : v.drop n = w.drop n :=
                    List.IsPrefix.eq_of_length hpre (by
                      have := hpre.length_le
                      omega)
                  have h1 : l.take n = w.take n := GetNumCommonChars_take_eq n l w hnkw
                  have h2 : l.take n = v.take n := GetNumCommonChars_take_eq n l v (le_of_eq hn.symm)
                  have hwv : w = v := by
                    calc w = w.take n ++ w.drop n := (List.take_append_drop n w).symm
                      _ = v.take n ++ v.drop n := by rw [← h1, h2, heq3]
                      _ = v := List.take_append_drop n v
                  rw [Node.Consumes_cons, if_neg h30, if_pos h3l, if_pos h3rem, hwv]
                  simp
                · have hwv : ¬w = v := by
                    intro h
                    subst h
                    rw [GetNumCommonChars_self] at h3rem
                    exact h3rem (List.drop_eq_nil_iff.mpr (le_refl _))
                  rw [Node.Consumes_cons, if_neg h30, if_pos h3l, if_neg h3rem]
                  rw [show (Node.mk [] : Node).edges = [] from rfl, Node.Consumes_nil,
                    Node.Consumes_cons, if_neg hw0, if_neg hRHS0]
                  simp [hwv]
              · have hwv : ¬w = v := by
                  intro h
                  subst h
                  rw [GetNumCommonChars_self] at h3l
                  exact h3l rfl
                rw [Node.Consumes_cons, if_neg h30, if_neg h3l,
                  Node.Consumes_cons, if_neg hw0, if_neg hRHS0]
                simp [hwv]
        · -- w shares strictly more than the prefix with the original label
          have hlt : n < GetNumCommonChars l w := by omega
          have h2pos : ¬GetNumCommonChars (l.drop n) (w.drop n) = 0 := by omega
          have hwv : ¬w = v := by
            intro h
            subst h
            omega
          by_cases hkwl : GetNumCommonChars l w = l.length
          · have h2full : GetNumCommonChars (l.drop n) (w.drop n) = (l.drop n).length := by
              rw [hdrop1, List.length_drop]
              omega
            have hdd : (w.drop n).drop (GetNumCommonChars (l.drop n) (w.drop n)) =
                w.drop (GetNumCommonChars l w) := by
              rw [hdrop1, List.drop_drop]
              congr 1
              omega
            rw [Node.Consumes_cons, if_neg h2pos, if_pos h2full, hdd,
              Node.Consumes_cons, if_neg hw0, if_pos hkwl]
            simp [hwv]
          · have h2l : ¬GetNumCommonChars (l.drop n) (w.drop n) = (l.drop n).length := by
              rw [hdrop1, List.length_drop]
              have := GetNumCommonChars_le_left l w
              omega
            rw [Node.Consumes_cons, if_neg h2pos, if_neg h2l,
              Node.Consumes_cons, if_neg hw0, if_neg hkwl]
            simp [hwv]

/-! ## The insertion flag is the negation of the pure lookup -/

theorem Node.Consumes_nil_right (es : List Edge) : Node.Consumes es [] = false := by
  induction es with
  | nil => exact Node.Consumes_nil []
  | cons e rest ih =>
    obtain ⟨l, c⟩ := e
    rw [Node.Consumes_cons, GetNumCommonChars_nil_right]
    simp [ih]

/-- The `isUnique` flag computed by the insertion loop is `true` exactly
when the tree did not already consume the inserted value. -/
theorem Node.EatAll_flag (es : List Edge) (r : Label) :
    (Node.EatAll es r).2 = !Node.Consumes es r := by
  induction es, r using Node.EatAll.induct with
  | case1 r =>
    rw [Node.EatAll_nil, Node.Consumes_nil]
    rfl
  | case2 l c rest r k hk ih =>
    have hk0 : GetNumCommonChars l r = 0 := hk
    rw [Node.EatAll_cons, Node.Consumes_cons, if_pos hk0, if_pos hk0]
    exact ih
  | case3 l c rest r k hk hl rem hrem =>
    have hk0 : ¬GetNumCommonChars l r = 0 := hk
    have hl0 : GetNumCommonChars l r = l.length := hl
    have hrem0 : r.drop (GetNumCommonChars l r) = [] := hrem
    rw [Node.EatAll_cons, Node.Consumes_cons, if_neg hk0, if_neg hk0, if_pos hl0, if_pos hl0,
      if_pos hrem0, if_pos hrem0]
    rfl
  | case4 l c rest r k hk hl rem hrem ih =>
    have hk0 : ¬GetNumCommonChars l r = 0 := hk
    have hl0 : GetNumCommonChars l r = l.length := hl
    have hrem0 : ¬r.drop (GetNumCommonChars l r) = [] := hrem
    rw [Node.EatAll_cons, Node.Consumes_cons, if_neg hk0, if_neg hk0, if_pos hl0, if_pos hl0,
      if_neg hrem0, if_neg hrem0]
    exact ih
  | case5 l c rest r k hk hl =>
    have hk0 : ¬GetNumCommonChars l r = 0 := hk
    have hl0 : ¬GetNumCommonChars l r = l.length := hl
    rw [Node.EatAll_cons, Node.Consumes_cons, if_neg hk0, if_neg hk0, if_neg hl0, if_neg hl0]
    rfl

/-- Inserting `v` makes the tree consume exactly `v` in addition to the
values it consumed before, as observed on values at least as long as `v`. -/
theorem Node.Consumes_EatAll (es : List Edge) (v : Label) :
    v ≠ [] → ∀ w : Label, v.length ≤ w.length →
      Node.Consumes (Node.EatAll es v).1 w = (Node.Consumes es w || decide (w = v)) := by
  induction es, v using Node.EatAll.induct with
  | case1 v =>
    intro hv w hw
    rw [Node.EatAll_nil, Node.Consumes_nil]
    by_cases hk : GetNumCommonChars v w = 0
    · have hwv : ¬w = v := by
        intro h
        subst h
        rw [GetNumCommonChars_self] at hk
        exact hv (List.length_eq_zero.mp hk)
      rw [Node.Consumes_cons, if_pos hk, Node.Consumes_nil]
      simp [hwv]
    · by_cases hl : GetNumCommonChars v w = v.length
      · by_cases hrem : w.drop (GetNumCommonChars v w) = []
        · have hlen : w.length ≤ v.length := by
            have h1 := List.drop_eq_nil_iff.mp hrem
            have h2 := GetNumCommonChars_le_left v w
            omega
          have hwv : w = v := by
            have hpre : v <+: w := (GetNumCommonChars_eq_left_iff v w).mp hl
            exact (List.IsPrefix.eq_of_length hpre (by omega)).symm
          rw [Node.Consumes_cons, if_neg hk, if_pos hl, if_pos hrem, hwv]
          simp
        · have hwv : ¬w = v := by
            intro h
            subst h
            rw [GetNumCommonChars_self] at hrem
            exact hrem (List.drop_eq_nil_iff.mpr (le_refl _))
          rw [Node.Consumes_cons, if_neg hk, if_pos hl, if_neg hrem,
            show (Node.mk [] : Node).edges = [] from rfl, Node.Consumes_nil]
          simp [hwv]
      · have hwv : ¬w = v := by
          intro h
          subst h
          rw [GetNumCommonChars_self] at hl
          exact hl rfl
        rw [Node.Consumes_cons, if_neg hk, if_neg hl]
        simp [hwv]
  | case2 l c rest v k hk ih =>
    intro hv w hw
    have hk0 : GetNumCommonChars l v = 0 := hk
    rw [Node.EatAll_cons, if_pos hk0]
    dsimp only
    by_cases hw0 : GetNumCommonChars l w = 0
    · rw [Node.Consumes_cons, if_pos hw0, Node.Consumes_cons, if_pos hw0]
      exact ih hv w hw
    · have hwv : ¬w = v := by
        intro h
        subst h
        exact hw0 hk0
      rw [Node.Consumes_cons, if_neg hw0, Node.Consumes_cons, if_neg hw0]
      simp [hwv]
  | case3 l c rest v k hk hl rem hrem =>
    intro hv w hw
    have hk0 : ¬GetNumCommonChars l v = 0 := hk
    have hl0 : GetNumCommonChars l v = l.length := hl
    have hrem0 : v.drop (GetNumCommonChars l v) = [] := hrem
    rw [Node.EatAll_cons, if_neg hk0, if_pos hl0, if_pos hrem0]
    dsimp only
    by_cases hwv : w = v
    · subst hwv
      rw [Node.Consumes_cons, if_neg hk0, if_pos hl0, if_pos hrem0]
      simp
    · simp [hwv]
  | case4 l c rest v k hk hl rem hrem ih =>
    intro hv w hw
    have hk0 : ¬GetNumCommonChars l v = 0 := hk
    have hl0 : GetNumCommonChars l v = l.length := hl
    have hrem0 : ¬v.drop (GetNumCommonChars l v) = [] := hrem
    rw [Node.EatAll_cons, if_neg hk0, if_pos hl0, if_neg hrem0]
    dsimp only
    by_cases hw0 : GetNumCommonChars l w = 0
    · have hwv : ¬w = v := by
        intro h
        subst h
        exact hk0 hw0
      rw [Node.Consumes_cons, if_pos hw0, Node.Consumes_cons, if_pos hw0]
      simp [hwv]
    · by_cases hwl : GetNumCommonChars l w = l.length
      · by_cases hwrem : w.drop (GetNumCommonChars l w) = []
        · rw [Node.Consumes_cons, if_neg hw0, if_pos hwl, if_pos hwrem,
            Node.Consumes_cons, if_neg hw0, if_pos hwl, if_pos hwrem]
          simp
        · rw [Node.Consumes_cons, if_neg hw0, if_pos hwl, if_neg hwrem,
            Node.Consumes_cons, if_neg hw0, if_pos hwl, if_neg hwrem]
          rw [show (Node.mk (Node.EatAll c.edges (v.drop (GetNumCommonChars l v))).1).edges
              = (Node.EatAll c.edges (v.drop (GetNumCommonChars l v))).1 from rfl]
          have hlen : (v.drop (GetNumCommonChars l v)).length
              ≤ (w.drop (GetNumCommonChars l w)).length := by
            rw [List.length_drop, List.length_drop, hl0, hwl]
            omega
          rw [ih hrem0 (w.drop (GetNumCommonChars l w)) hlen]
          have hiff : (w.drop (GetNumCommonChars l w) = v.drop (GetNumCommonChars l v)) ↔ w = v := by
            constructor
            · intro h
              have hw2 := GetNumCommonChars_full_decomp l w hwl
              have hv2 := GetNumCommonChars_full_decomp l v hl0
              rw [hwl] at h
              rw [hl0] at h
              rw [← hw2, ← hv2, h]
            · intro h
              rw [h]
          rw [show decide (w.drop (GetNumCommonChars l w) = v.drop (GetNumCommonChars l v))
              = decide (w = v) from decide_eq_decide.mpr hiff]
      · have hwv : ¬w = v := by
          intro h
          subst h
          exact hwl hl0
        rw [Node.Consumes_cons, if_neg hw0, if_neg hwl,
          Node.Consumes_cons, if_neg hw0, if_neg hwl]
        simp [hwv]
  | case5 l c rest v k hk hl =>
    intro hv w hw
    have hk0 : ¬GetNumCommonChars l v = 0 := hk
    have hl0 : ¬GetNumCommonChars l v = l.length := hl
    rw [Node.EatAll_cons, if_neg hk0, if_neg hl0]
    dsimp only
    exact Node.Consumes_split l c rest v w (GetNumCommonChars l v) rfl hk0
      (Nat.lt_of_le_of_ne (GetNumCommonChars_le_left l v) hl0) hw


/-! ## Sequence-level simulation between the radix tree and the set baseline -/

/-- Equation for `IsUnique` on a non-empty value. -/
theorem CompactRadixTreeAlgorithm.IsUnique_ne_nil (root : Node) (v : Label) (hv : v ≠ []) :
    CompactRadixTreeAlgorithm.IsUnique root v
      = (Node.mk (Node.EatAll root.edges v).1, (Node.EatAll root.edges v).2) := by
  cases v with
  | nil => exact absurd rfl hv
  | cons a as => rfl

/-- The simulation invariant tying the two detectors together: among values
of length `L`, the tree consumes exactly the values the baseline set
remembers. -/
def SimAt (L : Nat) (t : Node) (seen : List Label) : Prop :=
  ∀ w : Label, w.length = L → (Node.Consumes t.edges w = true ↔ w ∈ seen)

theorem SimAt_empty (L : Nat) : SimAt L CompactRadixTreeAlgorithm.Reset SetAlgorithm.Reset := by
  intro w _
  rw [CompactRadixTreeAlgorithm.Reset, SetAlgorithm.Reset]
  rw [show (Node.mk [] : Node).edges = [] from rfl, Node.Consumes_nil]
  simp

/-- One step of the simulation: on a value of the common length, the two
detectors return the same verdict and stay in simulation. -/
theorem SimAt_step (L : Nat) (hL : 0 < L) (t : Node) (seen : List Label)
    (hsim : SimAt L t seen) (v : Label) (hv : v.length = L) :
    (CompactRadixTreeAlgorithm.IsUnique t v).2 = (SetAlgorithm.IsUnique seen v).2 ∧
      SimAt L (CompactRadixTreeAlgorithm.IsUnique t v).1 (SetAlgorithm.IsUnique seen v).1 := by
  have hvne : v ≠ [] := by
    intro h
    subst h
    simp at hv
    omega
  rw [CompactRadixTreeAlgorithm.IsUnique_ne_nil t v hvne]
  constructor
  · rw [Node.EatAll_flag, SetAlgorithm.IsUnique]
    by_cases hm : v ∈ seen
    · rw [if_pos hm]
      have := (hsim v hv).mpr hm
      rw [this]
      rfl
    · rw [if_neg hm]
      have : Node.Consumes t.edges v = false := by
        cases hcv : Node.Consumes t.edges v with
        | false => rfl
        | true => exact absurd ((hsim v hv).mp hcv) hm
      rw [this]
      rfl
  · intro w hwL
    rw [show (Node.mk (Node.EatAll t.edges v).1).edges = (Node.EatAll t.edges v).1 from rfl]
    rw [Node.Consumes_EatAll t.edges v hvne w (by omega)]
    rw [SetAlgorithm.IsUnique]
    by_cases hm : v ∈ seen
    · rw [if_pos hm]
      constructor
      · intro h
        rcases Bool.or_eq_true_iff.mp h with h1 | h1
        · exact (hsim w hwL).mp h1
        · rw [decide_eq_true_eq] at h1
          subst h1
          exact hm
      · intro h
        rw [(hsim w hwL).mpr h]
        rfl
    · rw [if_neg hm]
      constructor
      · intro h
        rcases Bool.or_eq_true_iff.mp h with h1 | h1
        · exact List.mem_cons_of_mem v ((hsim w hwL).mp h1)
        · rw [decide_eq_true_eq] at h1
          subst h1
          exact List.mem_cons_self w seen
      · intro h
        rcases List.mem_cons.mp h with h1 | h1
        · subst h1
          simp
        · rw [(hsim w hwL).mpr h1]
          rfl

/-- Running any equal-length sequence keeps the two detectors in lock step:
same boolean results, and the simulation invariant holds at the end. -/
theorem run_simulates (L : Nat) (hL : 0 < L) (vs : List Label)
    (hvs : ∀ v ∈ vs, v.length = L) :
    ∀ (t : Node) (seen : List Label), SimAt L t seen →
      (CompactRadixTreeAlgorithm.run t vs).1 = (SetAlgorithm.run seen vs).1 ∧
        SimAt L (CompactRadixTreeAlgorithm.run t vs).2 (SetAlgorithm.run seen vs).2 := by
  induction vs with
  | nil =>
    intro t seen hsim
    exact ⟨rfl, hsim⟩
  | cons v vs ih =>
    intro t seen hsim
    have hv : v.length = L := hvs v (List.mem_cons_self v vs)
    have hstep := SimAt_step L hL t seen hsim v hv
    have hrest := ih (fun u hu => hvs u (List.mem_cons_of_mem v hu))
      (CompactRadixTreeAlgorithm.IsUnique t v).1 (SetAlgorithm.IsUnique seen v).1 hstep.2
    rw [CompactRadixTreeAlgorithm.run, SetAlgorithm.run]
    exact ⟨by rw [hstep.1, hrest.1], hrest.2⟩

/-- Membership in the state of the set baseline after a run. -/
theorem SetAlgorithm.run_mem (seen vs : List Label) (w : Label) :
    w ∈ (SetAlgorithm.run seen vs).2 ↔ w ∈ seen ∨ w ∈ vs := by
  induction vs generalizing seen with
  | nil =>
    rw [SetAlgorithm.run]
    simp
  | cons v vs ih =>
    rw [SetAlgorithm.run, SetAlgorithm.IsUnique]
    by_cases hm : v ∈ seen
    · rw [if_pos hm]
      rw [ih]
      constructor
      · rintro (h | h)
        · exact Or.inl h
        · exact Or.inr (List.mem_cons_of_mem v h)
      · rintro (h | h)
        · exact Or.inl h
        · rcases List.mem_cons.mp h with h1 | h1
          · exact Or.inl (h1 ▸ hm)
          · exact Or.inr h1
    · rw [if_neg hm]
      rw [ih]
      simp [List.mem_cons]
      tauto

/-! ## Counting `true` results -/

/-- The number of `true` verdicts in a result sequence (the quantity the
wrapper accumulates in its counter). -/
def CountTrue (bs : List Bool) : Nat := (bs.filter (fun b => b)).length

theorem CountTrue_nil : CountTrue [] = 0 := rfl

theorem CountTrue_cons (b : Bool) (bs : List Bool) :
    CountTrue (b :: bs) = (if b then 1 else 0) + CountTrue bs := by
  cases b <;> simp [CountTrue, Nat.add_comm]

/-- The set baseline reports `true` once for each distinct value not already
remembered. -/
theorem SetAlgorithm.run_CountTrue (seen vs : List Label) :
    CountTrue (SetAlgorithm.run seen vs).1 = (vs.toFinset \ seen.toFinset).card := by
  induction vs generalizing seen with
  | nil =>
    rw [SetAlgorithm.run]
    simp [CountTrue_nil]
  | cons v vs ih =>
    rw [SetAlgorithm.run, SetAlgorithm.IsUnique]
    by_cases hm : v ∈ seen
    · rw [if_pos hm]
      have h1 : (v :: vs).toFinset \ seen.toFinset = vs.toFinset \ seen.toFinset := by
        rw [List.toFinset_cons, Finset.insert_sdiff_of_mem _ (List.mem_toFinset.mpr hm)]
      rw [h1, CountTrue_cons, ← ih seen]
      simp
    · rw [if_neg hm]
      rw [CountTrue_cons, ih (v :: seen)]
      have h1 : vs.toFinset \ (v :: seen).toFinset
          = (vs.toFinset \ seen.toFinset).erase v := by
        rw [List.toFinset_cons, Finset.sdiff_insert]
      have h2 : (v :: vs).toFinset \ seen.toFinset
          = insert v (vs.toFinset \ seen.toFinset) := by
        rw [List.toFinset_cons, Finset.insert_sdiff_of_not_mem]
        exact fun hc => hm (List.mem_toFinset.mp hc)
      rw [h1, h2]
      dsimp only
      rw [if_pos rfl]
      by_cases hv : v ∈ vs.toFinset \ seen.toFinset
      · rw [Finset.card_insert_of_mem hv, Finset.card_erase_of_mem hv]
        have := Finset.card_pos.mpr ⟨v, hv⟩
        omega
      · rw [Finset.card_insert_of_not_mem hv, Finset.erase_eq_of_not_mem hv]
        omega

/-! ## Preservation of the no-shared-prefix invariant -/

theorem Node.NoSharedPrefix_nil : Node.NoSharedPrefix (Node.mk []) = true := by
  rw [Node.NoSharedPrefix]

theorem Node.NoSharedPrefix_cons (l : Label) (c : Node) (rest : List Edge) :
    Node.NoSharedPrefix (Node.mk ((l, c) :: rest))
      = (rest.all (fun e => GetNumCommonChars l e.1 == 0) && Node.NoSharedPrefix c
          && Node.NoSharedPrefix (Node.mk rest)) := by
  rw [Node.NoSharedPrefix]

theorem Node.mk_edges (c : Node) : Node.mk c.edges = c := by
  cases c
  rfl

/-- A label sharing nothing with any edge of a node nor with the inserted
value shares nothing with any edge of the node after the insertion. -/
theorem Node.EatAll_labels_no_common (es : List Edge) (r : Label) (q : Label)
    (hes : ∀ e ∈ es, GetNumCommonChars q e.1 = 0) (hr : GetNumCommonChars q r = 0) :
    ∀ e ∈ (Node.EatAll es r).1, GetNumCommonChars q e.1 = 0 := by
  induction es, r using Node.EatAll.induct with
  | case1 r =>
    rw [Node.EatAll_nil]
    intro e he
    rcases List.mem_singleton.mp he with rfl
    exact hr
  | case2 l c rest r k hk ih =>
    have hk0 : GetNumCommonChars l r = 0 := hk
    rw [Node.EatAll_cons, if_pos hk0]
    dsimp only
    intro e he
    rcases List.mem_cons.mp he with rfl | he2
    · exact hes (l, c) (List.mem_cons_self _ _)
    · exact ih (fun f hf => hes f (List.mem_cons_of_mem _ hf)) hr e he2
  | case3 l c rest r k hk hl rem hrem =>
    have hk0 : ¬GetNumCommonChars l r = 0 := hk
    have hl0 : GetNumCommonChars l r = l.length := hl
    have hrem0 : r.drop (GetNumCommonChars l r) = [] := hrem
    rw [Node.EatAll_cons, if_neg hk0, if_pos hl0, if_pos hrem0]
    exact hes
  | case4 l c rest r k hk hl rem hrem ih =>
    have hk0 : ¬GetNumCommonChars l r = 0 := hk
    have hl0 : GetNumCommonChars l r = l.length := hl
    have hrem0 : ¬r.drop (GetNumCommonChars l r) = [] := hrem
    rw [Node.EatAll_cons, if_neg hk0, if_pos hl0, if_neg hrem0]
    dsimp only
    intro e he
    rcases List.mem_cons.mp he with rfl | he2
    · exact hes (l, c) (List.mem_cons_self _ _)
    · exact hes e (List.mem_cons_of_mem _ he2)
  | case5 l c rest r k hk hl =>
    have hk0 : ¬GetNumCommonChars l r = 0 := hk
    have hl0 : ¬GetNumCommonChars l r = l.length := hl
    rw [Node.EatAll_cons, if_neg hk0, if_neg hl0]
    dsimp only
    intro e he
    rcases List.mem_cons.mp he with rfl | he2
    · have hql : GetNumCommonChars q l = 0 := hes (l, c) (List.mem_cons_self _ _)
      rw [GetNumCommonChars_comm, GetNumCommonChars_take, GetNumCommonChars_comm, hql]
      simp
    · exact hes e (List.mem_cons_of_mem _ he2)

/-- Insertion preserves the recursive no-shared-prefix invariant. -/
theorem Node.NoSharedPrefix_EatAll (es : List Edge) (r : Label) :
    Node.NoSharedPrefix (Node.mk es) = true →
      Node.NoSharedPrefix (Node.mk (Node.EatAll es r).1) = true := by
  induction es, r using Node.EatAll.induct with
  | case1 r =>
    intro _
    rw [Node.EatAll_nil, Node.NoSharedPrefix_cons]
    simp [Node.NoSharedPrefix_nil]
  | case2 l c rest r k hk ih =>
    intro h
    have hk0 : GetNumCommonChars l r = 0 := hk
    rw [Node.EatAll_cons, if_pos hk0]
    dsimp only
    rw [Node.NoSharedPrefix_cons] at h ⊢
    simp only [Bool.and_eq_true] at h ⊢
    obtain ⟨⟨hall, hc⟩, hrest⟩ := h
    refine ⟨⟨?_, hc⟩, ih hrest⟩
    rw [List.all_eq_true] at hall ⊢
    intro e he
    have hcomm : ∀ f ∈ rest, GetNumCommonChars l f.1 = 0 := by
      intro f hf
      have := hall f hf
      simpa using this
    have := Node.EatAll_labels_no_common rest r l hcomm hk0 e he
    simpa using this
  | case3 l c rest r k hk hl rem hrem =>
    intro h
    have hk0 : ¬GetNumCommonChars l r = 0 := hk
    have hl0 : GetNumCommonChars l r = l.length := hl
    have hrem0 : r.drop (GetNumCommonChars l r) = [] := hrem
    rw [Node.EatAll_cons, if_neg hk0, if_pos hl0, if_pos hrem0]
    exact h
  | case4 l c rest r k hk hl rem hrem ih =>
    intro h
    have hk0 : ¬GetNumCommonChars l r = 0 := hk
    have hl0 : GetNumCommonChars l r = l.length := hl
    have hrem0 : ¬r.drop (GetNumCommonChars l r) = [] := hrem
    rw [Node.EatAll_cons, if_neg hk0, if_pos hl0, if_neg hrem0]
    dsimp only
    rw [Node.NoSharedPrefix_cons] at h ⊢
    simp only [Bool.and_eq_true] at h ⊢
    obtain ⟨⟨hall, hc⟩, hrest⟩ := h
    refine ⟨⟨hall, ?_⟩, hrest⟩
    have hc2 : Node.NoSharedPrefix (Node.mk c.edges) = true := by
      rw [Node.mk_edges]
      exact hc
    exact ih hc2
  | case5 l c rest r k hk hl =>
    intro h
    have hk0 : ¬GetNumCommonChars l r = 0 := hk
    have hl0 : ¬GetNumCommonChars l r = l.length := hl
    rw [Node.EatAll_cons, if_neg hk0, if_neg hl0]
    dsimp only
    rw [Node.NoSharedPrefix_cons] at h ⊢
    simp only [Bool.and_eq_true] at h ⊢
    obtain ⟨⟨hall, hc⟩, hrest⟩ := h
    refine ⟨⟨?_, ?_⟩, hrest⟩
    · rw [List.all_eq_true] at hall ⊢
      intro e he
      have h0 : GetNumCommonChars l e.1 = 0 := by simpa using hall e he
      have : GetNumCommonChars (l.take (GetNumCommonChars l r)) e.1 = 0 := by
        rw [GetNumCommonChars_take, h0]
        simp
      simpa using this
    · rw [Node.NoSharedPrefix_cons, Node.NoSharedPrefix_cons]
      simp only [Bool.and_eq_true]
      refine ⟨⟨?_, hc⟩, ⟨⟨by simp, Node.NoSharedPrefix_nil⟩, Node.NoSharedPrefix_nil⟩⟩
      simp only [List.all_cons, List.all_nil, Bool.and_true]
      have := GetNumCommonChars_drop_self l r
      simpa using this

/-- The engine preserves the invariant across any whole run. -/
theorem CompactRadixTreeAlgorithm.run_NoSharedPrefix (vs : List Label) (t : Node)
    (h : Node.NoSharedPrefix t = true) :
    Node.NoSharedPrefix (CompactRadixTreeAlgorithm.run t vs).2 = true := by
  induction vs generalizing t with
  | nil => exact h
  | cons v vs ih =>
    rw [CompactRadixTreeAlgorithm.run]
    apply ih
    cases v with
    | nil => exact h
    | cons a as =>
      rw [CompactRadixTreeAlgorithm.IsUnique_ne_nil t (a :: as) (by simp)]
      apply Node.NoSharedPrefix_EatAll
      rw [Node.mk_edges]
      exact h

/-! ## Depth regularity under fixed-width insertion -/

theorem Node.UniformDepth_nil (m : Nat) : Node.UniformDepth (Node.mk []) m = true := by
  rw [Node.UniformDepth]

theorem Node.UniformDepth_cons (l : Label) (c : Node) (rest : List Edge) (m : Nat) :
    Node.UniformDepth (Node.mk ((l, c) :: rest)) m
      = (!l.isEmpty && decide (l.length ≤ m) && Node.UniformDepth c (m - l.length)
          && Node.UniformDepth (Node.mk rest) m) := by
  rw [Node.UniformDepth]

/-- Inserting a value of exactly the leftover width preserves depth
regularity (in particular no empty label is ever created). -/
theorem Node.UniformDepth_EatAll (es : List Edge) (r : Label) :
    ∀ m : Nat, Node.UniformDepth (Node.mk es) m = true → r.length = m → r ≠ [] →
      Node.UniformDepth (Node.mk (Node.EatAll es r).1) m = true := by
  induction es, r using Node.EatAll.induct with
  | case1 r =>
    intro m h hm hr
    rw [Node.EatAll_nil, Node.UniformDepth_cons]
    simp only [Bool.and_eq_true]
    refine ⟨⟨⟨?_, ?_⟩, Node.UniformDepth_nil _⟩, Node.UniformDepth_nil _⟩
    · simp [hr]
    · simp [hm]
  | case2 l c rest r k hk ih =>
    intro m h hm hr
    have hk0 : GetNumCommonChars l r = 0 := hk
    rw [Node.EatAll_cons, if_pos hk0]
    dsimp only
    rw [Node.UniformDepth_cons] at h ⊢
    simp only [Bool.and_eq_true] at h ⊢
    obtain ⟨⟨⟨hne, hle⟩, hc⟩, hrest⟩ := h
    exact ⟨⟨⟨hne, hle⟩, hc⟩, ih m hrest hm hr⟩
  | case3 l c rest r k hk hl rem hrem =>
    intro m h hm hr
    have hk0 : ¬GetNumCommonChars l r = 0 := hk
    have hl0 : GetNumCommonChars l r = l.length := hl
    have hrem0 : r.drop (GetNumCommonChars l r) = [] := hrem
    rw [Node.EatAll_cons, if_neg hk0, if_pos hl0, if_pos hrem0]
    exact h
  | case4 l c rest r k hk hl rem hrem ih =>
    intro m h hm hr
    have hk0 : ¬GetNumCommonChars l r = 0 := hk
    have hl0 : GetNumCommonChars l r = l.length := hl
    have hrem0 : ¬r.drop (GetNumCommonChars l r) = [] := hrem
    rw [Node.EatAll_cons, if_neg hk0, if_pos hl0, if_neg hrem0]
    dsimp only
    rw [Node.UniformDepth_cons] at h ⊢
    simp only [Bool.and_eq_true] at h ⊢
    obtain ⟨⟨⟨hne, hle⟩, hc⟩, hrest⟩ := h
    refine ⟨⟨⟨hne, hle⟩, ?_⟩, hrest⟩
    have hc2 : Node.UniformDepth (Node.mk c.edges) (m - l.length) = true := by
      rw [Node.mk_edges]
      exact hc
    have hlen : (r.drop (GetNumCommonChars l r)).length = m - l.length := by
      rw [List.length_drop, hl0, hm]
    exact ih (m - l.length) hc2 hlen hrem0
  | case5 l c rest r k hk hl =>
    intro m h hm hr
    have hk0 : ¬GetNumCommonChars l r = 0 := hk
    have hl0 : ¬GetNumCommonChars l r = l.length := hl
    have hkl : GetNumCommonChars l r < l.length :=
      Nat.lt_of_le_of_ne (GetNumCommonChars_le_left l r) hl0
    have hkr : GetNumCommonChars l r ≤ r.length := GetNumCommonChars_le_right l r
    rw [Node.EatAll_cons, if_neg hk0, if_neg hl0]
    dsimp only
    rw [Node.UniformDepth_cons] at h ⊢
    simp only [Bool.and_eq_true] at h ⊢
    obtain ⟨⟨⟨hne, hle⟩, hc⟩, hrest⟩ := h
    have hlem : l.length ≤ m := by simpa using hle
    have hkpos : 0 < GetNumCommonChars l r := Nat.pos_of_ne_zero hk0
    refine ⟨⟨⟨?_, ?_⟩, ?_⟩, hrest⟩
    · have : (l.take (GetNumCommonChars l r)).length = GetNumCommonChars l r := by
        rw [List.length_take]
        omega
      cases htake : l.take (GetNumCommonChars l r) with
      | nil =>
        rw [htake] at this
        simp at this
        omega
      | cons x xs => simp
    · rw [List.length_take]
      simp only [decide_eq_true_eq]
      omega
    · rw [List.length_take, show min (GetNumCommonChars l r) l.length = GetNumCommonChars l r
        from by omega]
      rw [Node.UniformDepth_cons]
      simp only [Bool.and_eq_true]
      refine ⟨⟨⟨?_, ?_⟩, ?_⟩, ?_⟩
      · have : (l.drop (GetNumCommonChars l r)).length = l.length - GetNumCommonChars l r := by
          rw [List.length_drop]
        cases hdrop : l.drop (GetNumCommonChars l r) with
        | nil =>
          rw [hdrop] at this
          simp at this
          omega
        | cons x xs => simp
      · rw [List.length_drop]
        simp only [decide_eq_true_eq]
        omega
      · rw [List.length_drop, show m - GetNumCommonChars l r - (l.length - GetNumCommonChars l r)
            = m - l.length from by omega]
        exact hc
      · rw [Node.UniformDepth_cons]
        simp only [Bool.and_eq_true]
        refine ⟨⟨⟨?_, ?_⟩, Node.UniformDepth_nil _⟩, Node.UniformDepth_nil _⟩
        · have hlt : GetNumCommonChars l r < r.length := by omega
          have : (r.drop (GetNumCommonChars l r)).length = r.length - GetNumCommonChars l r := by
            rw [List.length_drop]
          cases hdrop : r.drop (GetNumCommonChars l r) with
          | nil =>
            rw [hdrop] at this
            simp at this
            omega
          | cons x xs => simp
        · rw [List.length_drop]
          simp only [decide_eq_true_eq]
          omega

theorem Node.Labels_nil : Node.Labels (Node.mk []) = [] := by
  rw [Node.Labels]

theorem Node.Labels_cons (l : Label) (c : Node) (rest : List Edge) :
    Node.Labels (Node.mk ((l, c) :: rest))
      = l :: (Node.Labels c ++ Node.Labels (Node.mk rest)) := by
  rw [Node.Labels]

/-- In a depth-regular tree no edge label is empty. -/
theorem Node.UniformDepth_labels (t : Node) :
    ∀ m : Nat, Node.UniformDepth t m = true → ∀ lab ∈ t.Labels, lab ≠ [] := by
  induction t using Node.Labels.induct with
  | case1 =>
    intro m _ lab hlab
    rw [Node.Labels_nil] at hlab
    exact absurd hlab (List.not_mem_nil lab)
  | case2 l c rest ihc ihrest =>
    intro m h lab hlab
    rw [Node.UniformDepth_cons] at h
    simp only [Bool.and_eq_true] at h
    obtain ⟨⟨⟨hne, _⟩, hc⟩, hrest⟩ := h
    rw [Node.Labels_cons] at hlab
    rcases List.mem_cons.mp hlab with rfl | hlab2
    · intro habs
      rw [habs] at hne
      simp at hne
    · rcases List.mem_append.mp hlab2 with h2 | h2
      · exact ihc (m - l.length) hc lab h2
      · exact ihrest m hrest lab h2

/-- A whole fixed-width run preserves depth regularity. -/
theorem CompactRadixTreeAlgorithm.run_UniformDepth (L : Nat) (hL : 0 < L) (vs : List Label)
    (hvs : ∀ v ∈ vs, v.length = L) (t : Node) (h : Node.UniformDepth t L = true) :
    Node.UniformDepth (CompactRadixTreeAlgorithm.run t vs).2 L = true := by
  induction vs generalizing t with
  | nil => exact h
  | cons v vs ih =>
    rw [CompactRadixTreeAlgorithm.run]
    apply ih (fun u hu => hvs u (List.mem_cons_of_mem v hu))
    have hv : v.length = L := hvs v (List.mem_cons_self v vs)
    have hvne : v ≠ [] := by
      intro habs
      rw [habs] at hv
      simp at hv
      omega
    rw [CompactRadixTreeAlgorithm.IsUnique_ne_nil t v hvne]
    apply Node.UniformDepth_EatAll t.edges v L _ hv hvne
    rw [Node.mk_edges]
    exact h

/-! ## Lexicographic order facts -/

theorem LexLt_irrefl (l : Label) : LexLt l l = false := by
  induction l with
  | nil => rfl
  | cons a as ih =>
    rw [LexLt]
    simp [ih]

theorem LexLt_nil_cons (b : Char) (bs : Label) : LexLt [] (b :: bs) = true := rfl

theorem LexLt_cons_nil (a : Char) (as : Label) : LexLt (a :: as) [] = false := rfl

theorem LexLt_cons_cons (a b : Char) (as bs : Label) :
    LexLt (a :: as) (b :: bs)
      = (if a < b then true else if b < a then false else LexLt as bs) := rfl

theorem LexLt_trans (a b c : Label) (h1 : LexLt a b = true) (h2 : LexLt b c = true) :
    LexLt a c = true := by
  induction a generalizing b c with
  | nil =>
    cases c with
    | nil =>
      cases b with
      | nil => exact h1
      | cons x xs =>
        rw [LexLt] at h2
        exact h2
    | cons y ys => rfl
  | cons x xs ih =>
    cases b with
    | nil =>
      rw [LexLt] at h1
      exact absurd h1 (by simp)
    | cons y ys =>
      cases c with
      | nil =>
        rw [LexLt] at h2
        exact absurd h2 (by simp)
      | cons z zs =>
        rw [LexLt_cons_cons] at h1 h2 ⊢
        rcases lt_trichotomy x y with hxy | rfl | hxy
        · rcases lt_trichotomy y z with hyz | rfl | hyz
          · rw [if_pos (lt_trans hxy hyz)]
          · rw [if_pos hxy]
          · rw [if_neg (lt_asymm hyz), if_pos hyz] at h2
            exact absurd h2 (by simp)
        · rw [if_neg (lt_irrefl x), if_neg (lt_irrefl x)] at h1
          rcases lt_trichotomy x z with hxz | rfl | hxz
          · rw [if_pos hxz]
          · rw [if_neg (lt_irrefl x), if_neg (lt_irrefl x)] at h2 ⊢
            exact ih ys zs h1 h2
          · rw [if_neg (lt_asymm hxz), if_pos hxz] at h2
            exact absurd h2 (by simp)
        · rw [if_neg (lt_asymm hxy), if_pos hxy] at h1
          exact absurd h1 (by simp)

/-- The sandwich property: a label lying strictly above `r` and at or below
a label sharing `r`'s first character itself starts with that character. -/
theorem LexLt_sandwich_above (h r x : Label) (hh : h.head? = r.head?) (hhne : h ≠ [])
    (hrne : r ≠ []) (h1 : LexLt r x = true) (h2 : LexLt h x = false) :
    x.head? = r.head? ∧ x ≠ [] := by
  cases r with
  | nil => exact absurd rfl hrne
  | cons a rt =>
    cases h with
    | nil => exact absurd rfl hhne
    | cons b ht =>
      have hab : a = b := by
        rw [List.head?_cons, List.head?_cons] at hh
        exact (Option.some.inj hh).symm
      subst hab
      cases x with
      | nil =>
        rw [LexLt_cons_nil] at h1
        exact absurd h1 (by simp)
      | cons c xt =>
        rw [LexLt_cons_cons] at h1 h2
        constructor
        · rw [List.head?_cons, List.head?_cons]
          by_cases hac : a < c
          · rw [if_pos hac] at h2
            exact absurd h2 (by simp)
          · by_cases hca : c < a
            · rw [if_neg hac, if_pos hca] at h1
              exact absurd h1 (by simp)
            · exact congrArg some (le_antisymm (not_lt.mp hac) (not_lt.mp hca))
        · simp

/-- Mirror sandwich: a label lying at or below `r` and at or above a label
sharing `r`'s first character itself starts with that character. -/
theorem LexLt_sandwich_below (h r x : Label) (hh : h.head? = r.head?) (hhne : h ≠ [])
    (hrne : r ≠ []) (h1 : LexLt r x = false) (h2 : LexLt x h = false) :
    x.head? = r.head? ∧ x ≠ [] := by
  cases r with
  | nil => exact absurd rfl hrne
  | cons a rt =>
    cases h with
    | nil => exact absurd rfl hhne
    | cons b ht =>
      have hab : a = b := by
        rw [List.head?_cons, List.head?_cons] at hh
        exact (Option.some.inj hh).symm
      subst hab
      cases x with
      | nil =>
        rw [LexLt_nil_cons] at h2
        exact absurd h2 (by simp)
      | cons c xt =>
        rw [LexLt_cons_cons] at h1 h2
        constructor
        · rw [List.head?_cons, List.head?_cons]
          by_cases hac : a < c
          · rw [if_pos hac] at h1
            exact absurd h1 (by simp)
          · by_cases hca : c < a
            · rw [if_pos hca] at h2
              exact absurd h2 (by simp)
            · exact congrArg some (le_antisymm (not_lt.mp hac) (not_lt.mp hca))
        · simp

/-! ## The minimum and maximum selections model the map iterators -/

theorem MinEdgeByLabel_eq_none (es : List Edge) : MinEdgeByLabel es = none ↔ es = [] := by
  cases es with
  | nil => simp [MinEdgeByLabel]
  | cons e rest =>
    rw [MinEdgeByLabel]
    cases MinEdgeByLabel rest with
    | none => simp
    | some m =>
      by_cases h : LexLt e.1 m.1 = true <;> simp [h]

theorem MinEdgeByLabel_mem (es : List Edge) (e : Edge) (h : MinEdgeByLabel es = some e) :
    e ∈ es := by
  induction es generalizing e with
  | nil => simp [MinEdgeByLabel] at h
  | cons f rest ih =>
    rw [MinEdgeByLabel] at h
    cases hrest : MinEdgeByLabel rest with
    | none =>
      rw [hrest] at h
      exact (Option.some.inj h) ▸ List.mem_cons_self f rest
    | some m =>
      rw [hrest] at h
      dsimp only at h
      by_cases hlt : LexLt f.1 m.1 = true
      · rw [if_pos hlt] at h
        exact (Option.some.inj h) ▸ List.mem_cons_self f rest
      · rw [if_neg hlt] at h
        have hme : m = e := Option.some.inj h
        subst hme
        exact List.mem_cons_of_mem f (ih m hrest)

theorem MinEdgeByLabel_min (es : List Edge) (e : Edge) (h : MinEdgeByLabel es = some e) :
    ∀ f ∈ es, LexLt f.1 e.1 = false := by
  induction es generalizing e with
  | nil => simp [MinEdgeByLabel] at h
  | cons g rest ih =>
    rw [MinEdgeByLabel] at h
    intro f hf
    cases hrest : MinEdgeByLabel rest with
    | none =>
      have hrnil : rest = [] := (MinEdgeByLabel_eq_none rest).mp hrest
      rw [hrest] at h
      have hge : g = e := Option.some.inj h
      subst hge
      subst hrnil
      rcases List.mem_singleton.mp hf with rfl
      exact LexLt_irrefl _
    | some m =>
      rw [hrest] at h
      dsimp only at h
      by_cases hlt : LexLt g.1 m.1 = true
      · rw [if_pos hlt] at h
        have hge : g = e := Option.some.inj h
        subst hge
        rcases List.mem_cons.mp hf with rfl | hf2
        · exact LexLt_irrefl _
        · cases hco : LexLt f.1 g.1 with
          | false => rfl
          | true =>
            have := LexLt_trans f.1 g.1 m.1 hco hlt
            rw [ih m hrest f hf2] at this
            exact this.symm
      · rw [if_neg hlt] at h
        have hme : m = e := Option.some.inj h
        subst hme
        rcases List.mem_cons.mp hf with rfl | hf2
        · cases hco : LexLt f.1 m.1 with
          | false => rfl
          | true => exact absurd hco hlt
        · exact ih m hrest f hf2

theorem MaxEdgeByLabel_eq_none (es : List Edge) : MaxEdgeByLabel es = none ↔ es = [] := by
  cases es with
  | nil => simp [MaxEdgeByLabel]
  | cons e rest =>
    rw [MaxEdgeByLabel]
    cases MaxEdgeByLabel rest with
    | none => simp
    | some m =>
      by_cases h : LexLt m.1 e.1 = true <;> simp [h]

theorem MaxEdgeByLabel_mem (es : List Edge) (e : Edge) (h : MaxEdgeByLabel es = some e) :
    e ∈ es := by
  induction es generalizing e with
  | nil => simp [MaxEdgeByLabel] at h
  | cons f rest ih =>
    rw [MaxEdgeByLabel] at h
    cases hrest : MaxEdgeByLabel rest with
    | none =>
      rw [hrest] at h
      exact (Option.some.inj h) ▸ List.mem_cons_self f rest
    | some m =>
      rw [hrest] at h
      dsimp only at h
      by_cases hlt : LexLt m.1 f.1 = true
      · rw [if_pos hlt] at h
        exact (Option.some.inj h) ▸ List.mem_cons_self f rest
      · rw [if_neg hlt] at h
        have hme : m = e := Option.some.inj h
        subst hme
        exact List.mem_cons_of_mem f (ih m hrest)

theorem MaxEdgeByLabel_max (es : List Edge) (e : Edge) (h : MaxEdgeByLabel es = some e) :
    ∀ f ∈ es, LexLt e.1 f.1 = false := by
  induction es generalizing e with
  | nil => simp [MaxEdgeByLabel] at h
  | cons g rest ih =>
    rw [MaxEdgeByLabel] at h
    intro f hf
    cases hrest : MaxEdgeByLabel rest with
    | none =>
      have hrnil : rest = [] := (MaxEdgeByLabel_eq_none rest).mp hrest
      rw [hrest] at h
      have hge : g = e := Option.some.inj h
      subst hge
      subst hrnil
      rcases List.mem_singleton.mp hf with rfl
      exact LexLt_irrefl _
    | some m =>
      rw [hrest] at h
      dsimp only at h
      by_cases hlt : LexLt m.1 g.1 = true
      · rw [if_pos hlt] at h
        have hge : g = e := Option.some.inj h
        subst hge
        rcases List.mem_cons.mp hf with rfl | hf2
        · exact LexLt_irrefl _
        · cases hco : LexLt g.1 f.1 with
          | false => rfl
          | true =>
            have := LexLt_trans m.1 g.1 f.1 hlt hco
            rw [ih m hrest f hf2] at this
            exact this.symm
      · rw [if_neg hlt] at h
        have hme : m = e := Option.some.inj h
        subst hme
        rcases List.mem_cons.mp hf with rfl | hf2
        · cases hco : LexLt m.1 f.1 with
          | false => rfl
          | true => exact absurd hco hlt
        · exact ih m hrest f hf2

/-! ## The node-local invariant and uniqueness of the matching edge -/

/-- The no-shared-prefix invariant on one edge collection, as the claim
states it for child lookup. -/
def EdgesNoSharedPrefix : List Edge → Bool
  | [] => true
  | e :: rest => rest.all (fun f => GetNumCommonChars e.1 f.1 == 0) && EdgesNoSharedPrefix rest

theorem Node.NoSharedPrefix_components (es : List Edge) :
    Node.NoSharedPrefix (Node.mk es) = true →
      EdgesNoSharedPrefix es = true ∧ ∀ e ∈ es, Node.NoSharedPrefix e.2 = true := by
  induction es with
  | nil =>
    intro _
    exact ⟨rfl, by simp⟩
  | cons e rest ih =>
    intro h
    obtain ⟨l, c⟩ := e
    rw [Node.NoSharedPrefix_cons] at h
    simp only [Bool.and_eq_true] at h
    obtain ⟨⟨hall, hc⟩, hrest⟩ := h
    obtain ⟨hrest1, hrest2⟩ := ih hrest
    constructor
    · rw [EdgesNoSharedPrefix]
      simp only [Bool.and_eq_true]
      exact ⟨hall, hrest1⟩
    · intro f hf
      rcases List.mem_cons.mp hf with rfl | hf2
      · exact hc
      · exact hrest2 f hf2

theorem GetNumCommonChars_pos_of_pos (a b r : Label)
    (ha : 0 < GetNumCommonChars a r) (hb : 0 < GetNumCommonChars b r) :
    0 < GetNumCommonChars a b := by
  obtain ⟨hane, haeq⟩ := (GetNumCommonChars_pos_iff a r).mp ha
  obtain ⟨hbne, hbeq⟩ := (GetNumCommonChars_pos_iff b r).mp hb
  exact (GetNumCommonChars_pos_iff a b).mpr ⟨hane, haeq.trans hbeq.symm⟩

/-- Under the invariant, at most one edge of a collection can share a
leading character with the remainder. -/
theorem EdgesNoSharedPrefix_unique (es : List Edge) (hinv : EdgesNoSharedPrefix es = true)
    (r : Label) (e f : Edge) (he : e ∈ es) (hf : f ∈ es)
    (hek : 0 < GetNumCommonChars e.1 r) (hfk : 0 < GetNumCommonChars f.1 r) : e = f := by
  induction es with
  | nil => cases he
  | cons g rest ih =>
    rw [EdgesNoSharedPrefix] at hinv
    simp only [Bool.and_eq_true] at hinv
    obtain ⟨hall, hrest⟩ := hinv
    rw [List.all_eq_true] at hall
    rcases List.mem_cons.mp he with rfl | he2
    · rcases List.mem_cons.mp hf with rfl | hf2
      · rfl
      · have h0 : GetNumCommonChars e.1 f.1 = 0 := by simpa using hall f hf2
        have := GetNumCommonChars_pos_of_pos e.1 f.1 r hek hfk
        omega
    · rcases List.mem_cons.mp hf with rfl | hf2
      · have h0 : GetNumCommonChars f.1 e.1 = 0 := by simpa using hall e he2
        have := GetNumCommonChars_pos_of_pos f.1 e.1 r hfk hek
        omega
      · exact ih hrest he2 hf2

/-! ## Characterisation of the unordered scan -/

theorem UnorderedEdges.Find_spec (es : List Edge) (r : Label) :
    (∃ k e, UnorderedEdges.Find es r = (k, some e) ∧ 0 < k ∧ GetNumCommonChars e.1 r = k
        ∧ e ∈ es)
    ∨ (UnorderedEdges.Find es r = (0, none) ∧ ∀ e ∈ es, GetNumCommonChars e.1 r = 0) := by
  induction es with
  | nil => exact Or.inr ⟨rfl, by simp⟩
  | cons e rest ih =>
    rw [UnorderedEdges.Find]
    by_cases hk : 0 < GetNumCommonChars e.1 r
    · rw [if_pos hk]
      exact Or.inl ⟨GetNumCommonChars e.1 r, e, rfl, hk, rfl, List.mem_cons_self e rest⟩
    · rw [if_neg hk]
      rcases ih with ⟨k, f, hfind, hpos, heq, hmem⟩ | ⟨hfind, hall⟩
      · exact Or.inl ⟨k, f, hfind, hpos, heq, List.mem_cons_of_mem e hmem⟩
      · refine Or.inr ⟨hfind, ?_⟩
        intro f hf
        rcases List.mem_cons.mp hf with rfl | hf2
        · omega
        · exact hall f hf2

/-! ## All three child-index strategies agree under the invariant -/

theorem OrderedEdges.Find_agrees_scan (es : List Edge) (r : Label) (hr : r ≠ [])
    (hinv : EdgesNoSharedPrefix es = true) :
    OrderedEdges.Find es r = UnorderedEdges.Find es r := by
  rcases UnorderedEdges.Find_spec es r with ⟨k, e, hfind, hk, hek, hmem⟩ | ⟨hfind, hall⟩
  · rw [hfind]
    have hekpos : 0 < GetNumCommonChars e.1 r := by omega
    obtain ⟨hene, heads⟩ := (GetNumCommonChars_pos_iff e.1 r).mp hekpos
    cases hre : LexLt r e.1 with
    | true =>
      have hefil : e ∈ es.filter (fun f => LexLt r f.1) :=
        List.mem_filter.mpr ⟨hmem, hre⟩
      cases hmin : MinEdgeByLabel (es.filter (fun f => LexLt r f.1)) with
      | none =>
        rw [MinEdgeByLabel_eq_none] at hmin
        rw [hmin] at hefil
        cases hefil
      | some f =>
        have hffil := MinEdgeByLabel_mem _ f hmin
        have hfmem : f ∈ es := (List.mem_filter.mp hffil).1
        have hflt : LexLt r f.1 = true := (List.mem_filter.mp hffil).2
        have hmin2 : LexLt e.1 f.1 = false := MinEdgeByLabel_min _ f hmin e hefil
        obtain ⟨hfheads, hfne⟩ := LexLt_sandwich_above e.1 r f.1 heads hene hr hflt hmin2
        have hfk : 0 < GetNumCommonChars f.1 r :=
          (GetNumCommonChars_pos_iff f.1 r).mpr ⟨hfne, hfheads⟩
        have hef : e = f := EdgesNoSharedPrefix_unique es hinv r e f hmem hfmem hekpos hfk
        subst hef
        simp only [OrderedEdges.Find, hmin]
        simp [hfk, hek, hk]
    | false =>
      have hsucc0 : ∀ f, MinEdgeByLabel (es.filter (fun f => LexLt r f.1)) = some f →
          GetNumCommonChars f.1 r = 0 := by
        intro f hmin
        by_contra hpos0
        have hfk : 0 < GetNumCommonChars f.1 r := Nat.pos_of_ne_zero hpos0
        have hffil := MinEdgeByLabel_mem _ f hmin
        have hfmem : f ∈ es := (List.mem_filter.mp hffil).1
        have hef : e = f := EdgesNoSharedPrefix_unique es hinv r e f hmem hfmem hekpos hfk
        subst hef
        have hflt : LexLt r e.1 = true := (List.mem_filter.mp hffil).2
        rw [hre] at hflt
        exact absurd hflt (by simp)
      have hemax : e ∈ es.filter (fun f => !LexLt r f.1) :=
        List.mem_filter.mpr ⟨hmem, by rw [hre]; rfl⟩
      cases hmax : MaxEdgeByLabel (es.filter (fun f => !LexLt r f.1)) with
      | none =>
        rw [MaxEdgeByLabel_eq_none] at hmax
        rw [hmax] at hemax
        cases hemax
      | some g =>
        have hgfil := MaxEdgeByLabel_mem _ g hmax
        have hgmem : g ∈ es := (List.mem_filter.mp hgfil).1
        have hglt : LexLt r g.1 = false := by
          have := (List.mem_filter.mp hgfil).2
          simpa using this
        have hmax2 : LexLt g.1 e.1 = false := MaxEdgeByLabel_max _ g hmax e hemax
        obtain ⟨hgheads, hgne⟩ := LexLt_sandwich_below e.1 r g.1 heads hene hr hglt hmax2
        have hgk : 0 < GetNumCommonChars g.1 r :=
          (GetNumCommonChars_pos_iff g.1 r).mpr ⟨hgne, hgheads⟩
        have heg : e = g := EdgesNoSharedPrefix_unique es hinv r e g hmem hgmem hekpos hgk
        subst heg
        cases hmin : MinEdgeByLabel (es.filter (fun f => LexLt r f.1)) with
        | none =>
          simp only [OrderedEdges.Find, hmin, hmax]
          simp [hek, hgk, hk]
        | some f =>
          have h0 := hsucc0 f hmin
          simp only [OrderedEdges.Find, hmin, hmax]
          simp [h0, hek, hgk, hk]
  · rw [hfind]
    cases hmin : MinEdgeByLabel (es.filter (fun f => LexLt r f.1)) with
    | none =>
      cases hmax : MaxEdgeByLabel (es.filter (fun f => !LexLt r f.1)) with
      | none => simp [OrderedEdges.Find, hmin, hmax]
      | some g =>
        have hgmem : g ∈ es := (List.mem_filter.mp (MaxEdgeByLabel_mem _ g hmax)).1
        have h0 := hall g hgmem
        simp [OrderedEdges.Find, hmin, hmax, h0]
    | some f =>
      have hfmem : f ∈ es := (List.mem_filter.mp (MinEdgeByLabel_mem _ f hmin)).1
      have h0f := hall f hfmem
      cases hmax : MaxEdgeByLabel (es.filter (fun f => !LexLt r f.1)) with
      | none => simp [OrderedEdges.Find, hmin, hmax, h0f]
      | some g =>
        have hgmem : g ∈ es := (List.mem_filter.mp (MaxEdgeByLabel_mem _ g hmax)).1
        have h0g := hall g hgmem
        simp [OrderedEdges.Find, hmin, hmax, h0f, h0g]

theorem IndexedEdges.Find_matches_scan (es : List Edge) (r : Label) (hr : r ≠ [])
    (hinv : EdgesNoSharedPrefix es = true) :
    IndexedEdges.Find es r = UnorderedEdges.Find es r := by
  rcases UnorderedEdges.Find_spec es r with ⟨k, e, hfind, hk, hek, hmem⟩ | ⟨hfind, hall⟩
  · rw [hfind]
    have hekpos : 0 < GetNumCommonChars e.1 r := by omega
    obtain ⟨hene, heads⟩ := (GetNumCommonChars_pos_iff e.1 r).mp hekpos
    cases hfq : es.find? (fun f => f.1.head? == r.head?) with
    | none =>
      have hnone := List.find?_eq_none.mp hfq e hmem
      exact absurd (by simp [heads]) hnone
    | some f =>
      have hfpred := List.find?_some hfq
      have hfmem : f ∈ es := List.mem_of_find?_eq_some hfq
      have hfheads : f.1.head? = r.head? := by simpa using hfpred
      have hfne : f.1 ≠ [] := by
        intro habs
        rw [habs] at hfheads
        cases r with
        | nil => exact hr rfl
        | cons a rt => simp at hfheads
      have hfk : 0 < GetNumCommonChars f.1 r :=
        (GetNumCommonChars_pos_iff f.1 r).mpr ⟨hfne, hfheads⟩
      have hef : e = f := EdgesNoSharedPrefix_unique es hinv r e f hmem hfmem hekpos hfk
      subst hef
      simp only [IndexedEdges.Find, hfq]
      rw [hek]
  · rw [hfind]
    cases hfq : es.find? (fun f => f.1.head? == r.head?) with
    | none => simp [IndexedEdges.Find, hfq]
    | some f =>
      have hfpred := List.find?_some hfq
      have hfmem : f ∈ es := List.mem_of_find?_eq_some hfq
      have hfheads : f.1.head? = r.head? := by simpa using hfpred
      have hfne : f.1 ≠ [] := by
        intro habs
        rw [habs] at hfheads
        cases r with
        | nil => exact hr rfl
        | cons a rt => simp at hfheads
      have hfk : 0 < GetNumCommonChars f.1 r :=
        (GetNumCommonChars_pos_iff f.1 r).mpr ⟨hfne, hfheads⟩
      have h0 := hall f hfmem
      omega

/-! ## The strategy-parametric loop instantiated with the unordered scan -/

theorem ReplaceEdge_cons (f : Edge) (rest : List Edge) (lab : Label) (e : Edge) :
    ReplaceEdge (f :: rest) lab e
      = if f.1 = lab then e :: rest else f :: ReplaceEdge rest lab e := rfl

theorem UnorderedEdges.Find_some_spec (es : List Edge) (r : Label) (k : Nat) (e : Edge)
    (h : UnorderedEdges.Find es r = (k, some e)) :
    0 < k ∧ GetNumCommonChars e.1 r = k ∧ e ∈ es := by
  rcases UnorderedEdges.Find_spec es r with ⟨k2, f, hfind, hk2, hek2, hmem2⟩ | ⟨hfind, _⟩
  · rw [h] at hfind
    injection hfind with hA hB
    injection hB with hC
    subst hA
    subst hC
    exact ⟨hk2, hek2, hmem2⟩
  · rw [h] at hfind
    injection hfind with _ hB
    exact absurd hB (by simp)

/-- When the strategy skips the head edge, the parametric loop keeps it and
continues on the tail. -/
theorem Node.EatAllWith_skip (find : List Edge → Label → Nat × Option Edge) (l : Label) (c : Node)
    (rest : List Edge) (r : Label)
    (hsame : find ((l, c) :: rest) r = find rest r)
    (hne : ∀ k e, find rest r = (k, some e) → 0 < k → ¬l = e.1) :
    Node.EatAllWith find ((l, c) :: rest) r
      = ((l, c) :: (Node.EatAllWith find rest r).1, (Node.EatAllWith find rest r).2) := by
  conv_lhs => rw [Node.EatAllWith]
  conv_rhs => rw [Node.EatAllWith]
  rw [hsame]
  cases hfind : find rest r with
  | mk k oe =>
    cases oe with
    | none =>
      dsimp only
      simp
    | some e =>
      dsimp only
      by_cases hk : k = 0
      · rw [dif_pos hk, dif_pos hk]
        simp
      · have hlne : ¬l = e.1 := hne k e hfind (Nat.pos_of_ne_zero hk)
        rw [dif_neg hk, dif_neg hk]
        by_cases hkl : k = e.1.length
        · rw [if_pos hkl, if_pos hkl]
          by_cases hrem : r.drop k = []
          · rw [dif_pos hrem, dif_pos hrem]
          · rw [dif_neg hrem, dif_neg hrem]
            dsimp only
            rw [ReplaceEdge_cons, if_neg hlne]
        · rw [if_neg hkl, if_neg hkl]
          rw [ReplaceEdge_cons, if_neg hlne]

/-- The strategy-parametric loop with the unordered scan is the insertion
loop. -/
theorem Node.EatAllWith_unordered (es : List Edge) (r : Label) :
    Node.EatAllWith UnorderedEdges.Find es r = Node.EatAll es r := by
  induction es, r using Node.EatAll.induct with
  | case1 r =>
    rw [Node.EatAll_nil, Node.EatAllWith]
    rw [show UnorderedEdges.Find [] r = (0, none) from rfl]
    dsimp only
    simp
  | case2 l c rest r k hk ih =>
    have hk0 : GetNumCommonChars l r = 0 := hk
    have hsame : UnorderedEdges.Find ((l, c) :: rest) r = UnorderedEdges.Find rest r := by
      rw [UnorderedEdges.Find]
      rw [if_neg (by omega : ¬0 < GetNumCommonChars l r)]
    have hne : ∀ k2 e, UnorderedEdges.Find rest r = (k2, some e) → 0 < k2 → ¬l = e.1 := by
      intro k2 e hfind hpos habs
      obtain ⟨_, hek2, _⟩ := UnorderedEdges.Find_some_spec rest r k2 e hfind
      rw [← habs] at hek2
      omega
    rw [Node.EatAllWith_skip UnorderedEdges.Find l c rest r hsame hne, ih]
    rw [Node.EatAll_cons, if_pos hk0]
  | case3 l c rest r k hk hl rem hrem =>
    have hk0 : ¬GetNumCommonChars l r = 0 := hk
    have hl0 : GetNumCommonChars l r = l.length := hl
    have hrem0 : r.drop (GetNumCommonChars l r) = [] := hrem
    have hfind : UnorderedEdges.Find ((l, c) :: rest) r
        = (GetNumCommonChars l r, some (l, c)) := by
      rw [UnorderedEdges.Find, if_pos (Nat.pos_of_ne_zero hk0)]
    rw [Node.EatAllWith, hfind]
    dsimp only
    rw [dif_neg hk0, if_pos hl0, dif_pos hrem0]
    rw [Node.EatAll_cons, if_neg hk0, if_pos hl0, if_pos hrem0]
  | case4 l c rest r k hk hl rem hrem ih =>
    have hk0 : ¬GetNumCommonChars l r = 0 := hk
    have hl0 : GetNumCommonChars l r = l.length := hl
    have hrem0 : ¬r.drop (GetNumCommonChars l r) = [] := hrem
    have hfind : UnorderedEdges.Find ((l, c) :: rest) r
        = (GetNumCommonChars l r, some (l, c)) := by
      rw [UnorderedEdges.Find, if_pos (Nat.pos_of_ne_zero hk0)]
    rw [Node.EatAllWith, hfind]
    dsimp only
    rw [dif_neg hk0, if_pos hl0, dif_neg hrem0]
    rw [ih, ReplaceEdge_cons, if_pos rfl]
    rw [Node.EatAll_cons, if_neg hk0, if_pos hl0, if_neg hrem0]
  | case5 l c rest r k hk hl =>
    have hk0 : ¬GetNumCommonChars l r = 0 := hk
    have hl0 : ¬GetNumCommonChars l r = l.length := hl
    have hfind : UnorderedEdges.Find ((l, c) :: rest) r
        = (GetNumCommonChars l r, some (l, c)) := by
      rw [UnorderedEdges.Find, if_pos (Nat.pos_of_ne_zero hk0)]
    rw [Node.EatAllWith, hfind]
    dsimp only
    rw [dif_neg hk0, if_neg hl0]
    rw [ReplaceEdge_cons, if_pos rfl]
    rw [Node.EatAll_cons, if_neg hk0, if_neg hl0]

theorem Node.EatAllWith_eq_some (find : List Edge → Label → Nat × Option Edge)
    (es : List Edge) (r : Label) (k : Nat) (e : Edge) (hfind : find es r = (k, some e)) :
    Node.EatAllWith find es r =
      (if k = 0 then (es ++ [(r, Node.mk [])], true)
       else if k = e.1.length then
         if r.drop k = [] then (es, false)
         else (ReplaceEdge es e.1 (e.1, Node.mk (Node.EatAllWith find e.2.edges (r.drop k)).1),
               (Node.EatAllWith find e.2.edges (r.drop k)).2)
       else (ReplaceEdge es e.1
         (e.1.take k, Node.mk [(e.1.drop k, e.2), (r.drop k, Node.mk [])]), true)) := by
  rw [Node.EatAllWith, hfind]
  rfl

theorem Node.EatAllWith_eq_none (find : List Edge → Label → Nat × Option Edge)
    (es : List Edge) (r : Label) (k : Nat) (hfind : find es r = (k, none)) :
    Node.EatAllWith find es r = (es ++ [(r, Node.mk [])], true) := by
  rw [Node.EatAllWith, hfind]

/-- Two strategies that agree on invariant-satisfying collections drive the
loop identically on invariant-satisfying trees. -/
theorem Node.EatAllWith_congr (f g : List Edge → Label → Nat × Option Edge)
    (hfg : ∀ es r, r ≠ [] → EdgesNoSharedPrefix es = true → f es r = g es r)
    (hmemg : ∀ es r k e, g es r = (k, some e) → e ∈ es) :
    ∀ (n : Nat) (r : Label) (es : List Edge), r.length ≤ n → r ≠ [] →
      Node.NoSharedPrefix (Node.mk es) = true →
      Node.EatAllWith f es r = Node.EatAllWith g es r := by
  intro n
  induction n with
  | zero =>
    intro r es hlen hr _
    cases r with
    | nil => exact absurd rfl hr
    | cons a as => simp at hlen
  | succ n ih =>
    intro r es hlen hr hinv
    obtain ⟨hloc, hchild⟩ := Node.NoSharedPrefix_components es hinv
    have hfg2 : f es r = g es r := hfg es r hr hloc
    cases hfind : g es r with
    | mk k oe =>
      cases oe with
      | none =>
        rw [Node.EatAllWith_eq_none f es r k (hfg2.trans hfind),
          Node.EatAllWith_eq_none g es r k hfind]
      | some e =>
        rw [Node.EatAllWith_eq_some f es r k e (hfg2.trans hfind),
          Node.EatAllWith_eq_some g es r k e hfind]
        by_cases hk : k = 0
        · rw [if_pos hk, if_pos hk]
        · rw [if_neg hk, if_neg hk]
          by_cases hkl : k = e.1.length
          · rw [if_pos hkl, if_pos hkl]
            by_cases hrem : r.drop k = []
            · rw [if_pos hrem, if_pos hrem]
            · rw [if_neg hrem, if_neg hrem]
              have hmem : e ∈ es := hmemg es r k e hfind
              have hcinv : Node.NoSharedPrefix (Node.mk e.2.edges) = true := by
                rw [Node.mk_edges]
                exact hchild e hmem
              have hlen2 : (r.drop k).length ≤ n := by
                rw [List.length_drop]
                have : 0 < r.length := List.length_pos.mpr hr
                omega
              rw [ih (r.drop k) e.2.edges hlen2 hrem hcinv]
          · rw [if_neg hkl, if_neg hkl]

/-! ## Run-level equivalence of the three strategies -/

theorem CompactRadixTreeAlgorithm.IsUnique_NoSharedPrefix (t : Node) (v : Label)
    (h : Node.NoSharedPrefix t = true) :
    Node.NoSharedPrefix (CompactRadixTreeAlgorithm.IsUnique t v).1 = true := by
  cases v with
  | nil => exact h
  | cons a as =>
    rw [CompactRadixTreeAlgorithm.IsUnique_ne_nil t (a :: as) (by simp)]
    apply Node.NoSharedPrefix_EatAll
    rw [Node.mk_edges]
    exact h

theorem CompactRadixTreeAlgorithm.IsUniqueWith_ne_nil
    (find : List Edge → Label → Nat × Option Edge) (root : Node) (v : Label) (hv : v ≠ []) :
    CompactRadixTreeAlgorithm.IsUniqueWith find root v
      = (Node.mk (Node.EatAllWith find root.edges v).1,
         (Node.EatAllWith find root.edges v).2) := by
  cases v with
  | nil => exact absurd rfl hv
  | cons a as => rfl

theorem CompactRadixTreeAlgorithm.IsUniqueWith_unordered (root : Node) (v : Label) :
    CompactRadixTreeAlgorithm.IsUniqueWith UnorderedEdges.Find root v
      = CompactRadixTreeAlgorithm.IsUnique root v := by
  cases v with
  | nil => rfl
  | cons a as =>
    rw [CompactRadixTreeAlgorithm.IsUniqueWith_ne_nil _ root _ (by simp),
      CompactRadixTreeAlgorithm.IsUnique_ne_nil root _ (by simp),
      Node.EatAllWith_unordered]

/-- Any strategy agreeing with the unordered scan on invariant-satisfying
collections yields the same whole-run behaviour (results and trees) as the
engine, provided the starting tree satisfies the invariant. -/
theorem CompactRadixTreeAlgorithm.runWith_eq_run
    (find : List Edge → Label → Nat × Option Edge)
    (hagree : ∀ es r, r ≠ [] → EdgesNoSharedPrefix es = true →
      find es r = UnorderedEdges.Find es r) :
    ∀ (vs : List Label), (∀ v ∈ vs, v ≠ []) → ∀ t : Node, Node.NoSharedPrefix t = true →
      CompactRadixTreeAlgorithm.runWith find t vs = CompactRadixTreeAlgorithm.run t vs := by
  intro vs
  induction vs with
  | nil =>
    intro _ t _
    rfl
  | cons v vs ih =>
    intro hvs t hinv
    have hv : v ≠ [] := hvs v (List.mem_cons_self v vs)
    have hstep : CompactRadixTreeAlgorithm.IsUniqueWith find t v
        = CompactRadixTreeAlgorithm.IsUnique t v := by
      rw [CompactRadixTreeAlgorithm.IsUniqueWith_ne_nil find t v hv,
        CompactRadixTreeAlgorithm.IsUnique_ne_nil t v hv]
      have h1 : Node.EatAllWith find t.edges v
          = Node.EatAllWith UnorderedEdges.Find t.edges v :=
        Node.EatAllWith_congr find UnorderedEdges.Find hagree
          (fun es r k e h => (UnorderedEdges.Find_some_spec es r k e h).2.2)
          v.length v t.edges (le_refl _) hv
          (by rw [Node.mk_edges]; exact hinv)
      rw [h1, Node.EatAllWith_unordered]
    rw [CompactRadixTreeAlgorithm.runWith, CompactRadixTreeAlgorithm.run, hstep,
      ih (fun u hu => hvs u (List.mem_cons_of_mem v hu)) _
        (CompactRadixTreeAlgorithm.IsUnique_NoSharedPrefix t v hinv)]

/-! ## The checked engine never raises on non-empty values -/

theorem UnorderedEdges.FindE_ok (es : List Edge) (r : Label) (hr : r ≠ []) :
    UnorderedEdges.FindE es r = .ok (UnorderedEdges.Find es r) := by
  induction es with
  | nil => rfl
  | cons e rest ih =>
    rw [UnorderedEdges.FindE, UnorderedEdges.Find, GetNumCommonCharsE, if_neg hr]
    dsimp only
    by_cases hk : 0 < GetNumCommonChars e.1 r
    · rw [if_pos hk, if_pos hk]
    · rw [if_neg hk, if_neg hk, ih]

theorem Node.EatAllE_eq_some (es : List Edge) (r : Label) (k : Nat) (e : Edge) (hr : ¬r = [])
    (hfind : UnorderedEdges.FindE es r = .ok (k, some e)) :
    Node.EatAllE es r =
      (if 0 < k then
        if k = 0 ∨ min e.1.length r.length < k then .error "invalid numCommonChars"
        else if k = e.1.length then
          if r.drop k = [] then .ok (es, false)
          else
            match Node.EatAllE e.2.edges (r.drop k) with
            | .error msg => .error msg
            | .ok p => .ok (ReplaceEdge es e.1 (e.1, Node.mk p.1), p.2)
        else
          .ok (ReplaceEdge es e.1
            (e.1.take k, Node.mk [(e.1.drop k, e.2), (r.drop k, Node.mk [])]), true)
      else .ok (es ++ [(r, Node.mk [])], true)) := by
  rw [Node.EatAllE, if_neg hr, hfind]
  rfl

theorem Node.EatAllE_eq_none (es : List Edge) (r : Label) (k : Nat) (hr : ¬r = [])
    (hfind : UnorderedEdges.FindE es r = .ok (k, none)) :
    Node.EatAllE es r = .ok (es ++ [(r, Node.mk [])], true) := by
  rw [Node.EatAllE, if_neg hr, hfind]

/-- On a non-empty remainder no `RaiseError` branch is reachable: the checked
loop returns exactly the unchecked loop's result. -/
theorem Node.EatAllE_ok : ∀ (n : Nat) (r : Label) (es : List Edge), r.length ≤ n → r ≠ [] →
    Node.EatAllE es r = .ok (Node.EatAll es r) := by
  intro n
  induction n with
  | zero =>
    intro r es hlen hr
    cases r with
    | nil => exact absurd rfl hr
    | cons a as => simp at hlen
  | succ n ih =>
    intro r es hlen hr
    have hfok := UnorderedEdges.FindE_ok es r hr
    rcases UnorderedEdges.Find_spec es r with ⟨k, e, hfind, hk, hek, hmem⟩ | ⟨hfind, hall⟩
    · rw [hfind] at hfok
      rw [Node.EatAllE_eq_some es r k e hr hfok, if_pos hk]
      have hb1 := GetNumCommonChars_le_left e.1 r
      have hb2 := GetNumCommonChars_le_right e.1 r
      have hck : ¬(k = 0 ∨ min e.1.length r.length < k) := by omega
      rw [if_neg hck]
      rw [← Node.EatAllWith_unordered es r, Node.EatAllWith_eq_some _ es r k e hfind,
        if_neg (by omega : ¬k = 0)]
      by_cases hkl : k = e.1.length
      · rw [if_pos hkl, if_pos hkl]
        by_cases hrem : r.drop k = []
        · rw [if_pos hrem, if_pos hrem]
        · rw [if_neg hrem, if_neg hrem]
          have hlen2 : (r.drop k).length ≤ n := by
            rw [List.length_drop]
            have : 0 < r.length := List.length_pos.mpr hr
            omega
          rw [ih (r.drop k) e.2.edges hlen2 hrem, Node.EatAllWith_unordered]
      · rw [if_neg hkl, if_neg hkl]
    · rw [hfind] at hfok
      rw [Node.EatAllE_eq_none es r 0 hr hfok]
      rw [← Node.EatAllWith_unordered es r, Node.EatAllWith_eq_none _ es r 0 hfind]

/-- `IsUnique` with all argument checks in place returns exactly what the
engine returns: no check can fire. -/
theorem CompactRadixTreeAlgorithm.IsUniqueE_ok (root : Node) (v : Label) :
    CompactRadixTreeAlgorithm.IsUniqueE root v
      = .ok (CompactRadixTreeAlgorithm.IsUnique root v) := by
  cases v with
  | nil => rfl
  | cons a as =>
    show (match Node.EatAllE root.edges (a :: as) with
      | Except.error msg => (Except.error msg : Except String (Node × Bool))
      | Except.ok p => Except.ok (Node.mk p.1, p.2))
      = Except.ok (CompactRadixTreeAlgorithm.IsUnique root (a :: as))
    rw [Node.EatAllE_ok (a :: as).length (a :: as) root.edges (le_refl _) (by simp),
      CompactRadixTreeAlgorithm.IsUnique_ne_nil root (a :: as) (by simp)]

/-- A whole run of non-empty values through the checked engine raises no
error and returns the unchecked run's results. -/
theorem CompactRadixTreeAlgorithm.runE_ok (vs : List Label) :
    ∀ t : Node, (∀ v ∈ vs, v ≠ []) →
      CompactRadixTreeAlgorithm.runE t vs = .ok (CompactRadixTreeAlgorithm.run t vs) := by
  induction vs with
  | nil =>
    intro t _
    rfl
  | cons v vs ih =>
    intro t hvs
    rw [CompactRadixTreeAlgorithm.runE, CompactRadixTreeAlgorithm.run,
      CompactRadixTreeAlgorithm.IsUniqueE_ok t v]
    dsimp only
    rw [ih _ (fun u hu => hvs u (List.mem_cons_of_mem v hu))]

/-! ## Querying after a run -/

/-- After feeding any fixed-width sequence to a fresh engine, `IsUnique` on
a value of the same width reports `true` exactly when the value was not in
the sequence. -/
theorem CompactRadixTreeAlgorithm.IsUnique_after_run (L : Nat) (hL : 0 < L)
    (prior : List Label) (hprior : ∀ u ∈ prior, u.length = L) (v : Label)
    (hv : v.length = L) :
    ((CompactRadixTreeAlgorithm.IsUnique
        (CompactRadixTreeAlgorithm.run CompactRadixTreeAlgorithm.Reset prior).2 v).2 = true
      ↔ v ∉ prior) := by
  have hsim := (run_simulates L hL prior hprior CompactRadixTreeAlgorithm.Reset
    SetAlgorithm.Reset (SimAt_empty L)).2
  have hstep := SimAt_step L hL _ _ hsim v hv
  rw [hstep.1, SetAlgorithm.IsUnique]
  by_cases hm : v ∈ (SetAlgorithm.run SetAlgorithm.Reset prior).2
  · rw [if_pos hm]
    have hvp : v ∈ prior := by
      rcases (SetAlgorithm.run_mem SetAlgorithm.Reset prior v).mp hm with h | h
      · rw [SetAlgorithm.Reset] at h
        cases h
      · exact h
    simp [hvp]
  · rw [if_neg hm]
    have hvp : v ∉ prior :=
      fun hc => hm ((SetAlgorithm.run_mem _ prior v).mpr (Or.inr hc))
    simp [hvp]

/-- The number of `true` verdicts of a fresh engine on a fixed-width
sequence is the number of distinct values in the sequence. -/
theorem CompactRadixTreeAlgorithm.run_distinct_count (L : Nat) (hL : 0 < L) (vs : List Label)
    (hvs : ∀ v ∈ vs, v.length = L) :
    CountTrue (CompactRadixTreeAlgorithm.run CompactRadixTreeAlgorithm.Reset vs).1
      = vs.toFinset.card := by
  rw [(run_simulates L hL vs hvs _ _ (SimAt_empty L)).1, SetAlgorithm.run_CountTrue]
  rw [SetAlgorithm.Reset]
  simp

/-! ## Claims -/

/-- **C1** (corrected: the claim as frozen quantifies over arbitrary
non-empty digit strings, where it fails — see the counterexample; amended to
prior calls and query of one common length).  For every fixed width `L`,
after any sequence of `is_unique` calls with strings of length `L` on a
fresh engine, `is_unique v` for `v` of length `L` returns `true` iff `v` was
not among the prior calls; in particular after `reset()` a previously seen
value yields `true` again, and a repeated call yields `false`. -/
theorem C1_is_unique_iff_unseen (L : Nat) (hL : 0 < L) (prior : List Label)
    (hprior : ∀ u ∈ prior, u.length = L) (v : Label) (hv : v.length = L) :
    ((CompactRadixTreeAlgorithm.IsUnique
        (CompactRadixTreeAlgorithm.run CompactRadixTreeAlgorithm.Reset prior).2 v).2 = true
      ↔ v ∉ prior)
    ∧ (CompactRadixTreeAlgorithm.IsUnique CompactRadixTreeAlgorithm.Reset v).2 = true
    ∧ (CompactRadixTreeAlgorithm.IsUnique
        (CompactRadixTreeAlgorithm.run CompactRadixTreeAlgorithm.Reset (prior ++ [v])).2 v).2
      = false := by
  refine ⟨CompactRadixTreeAlgorithm.IsUnique_after_run L hL prior hprior v hv, ?_, ?_⟩
  · have h := CompactRadixTreeAlgorithm.IsUnique_after_run L hL [] (by simp) v hv
    exact h.mpr (by simp)
  · have hprior2 : ∀ u ∈ prior ++ [v], u.length = L := by
      intro u hu
      rcases List.mem_append.mp hu with h | h
      · exact hprior u h
      · rcases List.mem_singleton.mp h with rfl
        exact hv
    have h := CompactRadixTreeAlgorithm.IsUnique_after_run L hL (prior ++ [v]) hprior2 v hv
    cases hflag : (CompactRadixTreeAlgorithm.IsUnique
        (CompactRadixTreeAlgorithm.run CompactRadixTreeAlgorithm.Reset (prior ++ [v])).2 v).2 with
    | false => rfl
    | true => exact absurd (h.mp hflag) (by simp)

/-- **C1 witness**: a concrete instance of the amended claim. -/
theorem C1_is_unique_iff_unseen_witness :
    ((0 : Nat) < 1 ∧ (∀ u ∈ [[ '1' ]], u.length = 1) ∧ (['2'] : Label).length = 1)
    ∧ (((CompactRadixTreeAlgorithm.IsUnique
          (CompactRadixTreeAlgorithm.run CompactRadixTreeAlgorithm.Reset [['1']]).2 ['2']).2 = true
        ↔ ['2'] ∉ [[ '1' ]])
      ∧ (CompactRadixTreeAlgorithm.IsUnique CompactRadixTreeAlgorithm.Reset ['2']).2 = true
      ∧ (CompactRadixTreeAlgorithm.IsUnique
          (CompactRadixTreeAlgorithm.run CompactRadixTreeAlgorithm.Reset ([['1']] ++ [['2']])).2
          ['2']).2 = false) :=
  ⟨⟨by decide, by decide, by decide⟩,
    C1_is_unique_iff_unseen 1 (by decide) [['1']] (by decide) ['2'] (by decide)⟩

/-- **C1 counterexample**: with prior calls of mixed lengths the frozen
claim fails: after `is_unique "12"` and `is_unique "13"` (both `true`), the
call `is_unique "1"` returns `false` although `"1"` — a non-empty digit
string — was never passed. -/
theorem C1_counterexample :
    (CompactRadixTreeAlgorithm.run CompactRadixTreeAlgorithm.Reset [['1','2'], ['1','3']]).1
      = [true, true]
    ∧ (CompactRadixTreeAlgorithm.IsUnique
        (CompactRadixTreeAlgorithm.run CompactRadixTreeAlgorithm.Reset
          [['1','2'], ['1','3']]).2 ['1']).2 = false
    ∧ (['1'] : Label) ∉ [['1','2'], ['1','3']]
    ∧ (['1'] : Label) ≠ [] ∧ (['1'] : Label).all Char.isDigit = true
    ∧ (∀ u ∈ [['1','2'], ['1','3']], u ≠ ([] : Label) ∧ u.all Char.isDigit = true) := by
  refine ⟨?_, ?_, by decide, by decide, by decide, by decide⟩
  · simp [CompactRadixTreeAlgorithm.run, CompactRadixTreeAlgorithm.IsUnique,
      CompactRadixTreeAlgorithm.Reset, Node.EatAll_cons, Node.EatAll_nil, Node.edges,
      GetNumCommonChars]
  · simp [CompactRadixTreeAlgorithm.run, CompactRadixTreeAlgorithm.IsUnique,
      CompactRadixTreeAlgorithm.Reset, Node.EatAll_cons, Node.EatAll_nil, Node.edges,
      GetNumCommonChars]

/-- **C2**: on every sequence of equal-length non-empty digit strings fed to
a freshly constructed detector, the number of `true` results equals the
number of distinct strings in the sequence, and the radix-tree engine and
the set-based baseline return the same sequence of boolean results. -/
theorem C2_count_and_baseline (L : Nat) (hL : 0 < L) (vs : List Label)
    (hvs : ∀ v ∈ vs, v.length = L ∧ v.all Char.isDigit = true) :
    (CompactRadixTreeAlgorithm.run CompactRadixTreeAlgorithm.Reset vs).1
      = (SetAlgorithm.run SetAlgorithm.Reset vs).1
    ∧ CountTrue (CompactRadixTreeAlgorithm.run CompactRadixTreeAlgorithm.Reset vs).1
      = vs.toFinset.card :=
  ⟨(run_simulates L hL vs (fun v hv => (hvs v hv).1) _ _ (SimAt_empty L)).1,
    CompactRadixTreeAlgorithm.run_distinct_count L hL vs (fun v hv => (hvs v hv).1)⟩

/-- **C2 witness**: the spec's own edge-case dataset: six 3-digit values
with one duplicate give five `true` results and agree with the baseline. -/
theorem C2_count_and_baseline_witness :
    ((0 : Nat) < 3
      ∧ (∀ v ∈ [['1','2','3'], ['4','5','6'], ['1','2','3'], ['4','5','7'], ['4','4','2'],
          ['4','4','1']], v.length = 3 ∧ v.all Char.isDigit = true))
    ∧ ((CompactRadixTreeAlgorithm.run CompactRadixTreeAlgorithm.Reset
          [['1','2','3'], ['4','5','6'], ['1','2','3'], ['4','5','7'], ['4','4','2'],
            ['4','4','1']]).1
        = (SetAlgorithm.run SetAlgorithm.Reset
          [['1','2','3'], ['4','5','6'], ['1','2','3'], ['4','5','7'], ['4','4','2'],
            ['4','4','1']]).1
      ∧ CountTrue (CompactRadixTreeAlgorithm.run CompactRadixTreeAlgorithm.Reset
          [['1','2','3'], ['4','5','6'], ['1','2','3'], ['4','5','7'], ['4','4','2'],
            ['4','4','1']]).1
        = [['1','2','3'], ['4','5','6'], ['1','2','3'], ['4','5','7'], ['4','4','2'],
            ['4','4','1']].toFinset.card) :=
  ⟨⟨by decide, by decide⟩,
    C2_count_and_baseline 3 (by decide) _ (by decide)⟩

/-- **C3**: splitting an edge whose label shares a prefix of length `k`
(`0 < k <` label length) with a non-empty suffix truncates the label to the
shared prefix, hangs a fresh intermediate node with exactly two edges below
it — the remainder of the original label over the original child node and
the remainder of the suffix over a fresh empty node — consumes the suffix
entirely and reports `unique = true`. -/
theorem C3_edge_split (l : Label) (c : Node) (s : Label) (k : Nat) (rest : List Edge)
    (hs : s ≠ []) (hk : k = GetNumCommonChars l s) (h0 : 0 < k) (hkl : k < l.length) :
    Edge.Eat k (l, c) s
      = ((l.take k, Node.mk [(l.drop k, c), (s.drop k, Node.mk [])]), [], true, none)
    ∧ Node.EatAll ((l, c) :: rest) s
      = ((l.take k, Node.mk [(l.drop k, c), (s.drop k, Node.mk [])]) :: rest, true) := by
  subst hk
  constructor
  · simp only [Edge.Eat]
    rw [if_neg (by omega : ¬GetNumCommonChars l s = l.length)]
  · rw [Node.EatAll_cons, if_neg (by omega : ¬GetNumCommonChars l s = 0),
      if_neg (by omega : ¬GetNumCommonChars l s = l.length)]

/-- **C3 witness**: splitting the edge `"12"` against the suffix `"13"`
(shared prefix `"1"`). -/
theorem C3_edge_split_witness :
    ((['1','3'] : Label) ≠ [] ∧ 1 = GetNumCommonChars ['1','2'] ['1','3'] ∧ (0 : Nat) < 1
      ∧ 1 < (['1','2'] : Label).length)
    ∧ (Edge.Eat 1 (['1','2'], Node.mk []) ['1','3']
        = ((['1'], Node.mk [(['2'], Node.mk []), (['3'], Node.mk [])]), [], true, none)
      ∧ Node.EatAll [(['1','2'], Node.mk [])] ['1','3']
        = ((['1'], Node.mk [(['2'], Node.mk []), (['3'], Node.mk [])]) :: [], true)) :=
  ⟨⟨by decide, by decide, by decide, by decide⟩,
    C3_edge_split ['1','2'] (Node.mk []) ['1','3'] 1 [] (by decide) (by decide) (by decide)
      (by decide)⟩

/-- **C4**: after every sequence of `is_unique` calls with non-empty digit
strings on a fresh engine, in every node of the tree no two edges share a
non-empty common label prefix. -/
theorem C4_no_shared_prefix (vs : List Label)
    (hvs : ∀ v ∈ vs, v ≠ ([] : Label) ∧ v.all Char.isDigit = true) :
    Node.NoSharedPrefix
      (CompactRadixTreeAlgorithm.run CompactRadixTreeAlgorithm.Reset vs).2 = true :=
  CompactRadixTreeAlgorithm.run_NoSharedPrefix vs _ Node.NoSharedPrefix_nil

/-- **C4 witness**: the invariant after an insertion sequence that causes a
split, an append and a duplicate. -/
theorem C4_no_shared_prefix_witness :
    (∀ v ∈ [['1','2'], ['1','3'], ['4','5'], ['1','2']], v ≠ ([] : Label)
      ∧ v.all Char.isDigit = true)
    ∧ Node.NoSharedPrefix
        (CompactRadixTreeAlgorithm.run CompactRadixTreeAlgorithm.Reset
          [['1','2'], ['1','3'], ['4','5'], ['1','2']]).2 = true :=
  ⟨by decide, C4_no_shared_prefix [['1','2'], ['1','3'], ['4','5'], ['1','2']] (by decide)⟩

/-- **C5**: the three child-index strategies are interchangeable: their
`Find`s return the same matched edge and shared-prefix count on every
collection satisfying the no-shared-prefix invariant, and engines built on
each strategy produce the same result sequence and the same tree on every
insertion sequence of non-empty digit strings. -/
theorem C5_strategies_interchangeable :
    (∀ (es : List Edge) (r : Label), r ≠ [] → EdgesNoSharedPrefix es = true →
      OrderedEdges.Find es r = UnorderedEdges.Find es r
        ∧ IndexedEdges.Find es r = UnorderedEdges.Find es r)
    ∧ ∀ (vs : List Label), (∀ v ∈ vs, v ≠ ([] : Label) ∧ v.all Char.isDigit = true) →
      CompactRadixTreeAlgorithm.runWith UnorderedEdges.Find CompactRadixTreeAlgorithm.Reset vs
        = CompactRadixTreeAlgorithm.run CompactRadixTreeAlgorithm.Reset vs
      ∧ CompactRadixTreeAlgorithm.runWith OrderedEdges.Find CompactRadixTreeAlgorithm.Reset vs
        = CompactRadixTreeAlgorithm.run CompactRadixTreeAlgorithm.Reset vs
      ∧ CompactRadixTreeAlgorithm.runWith IndexedEdges.Find CompactRadixTreeAlgorithm.Reset vs
        = CompactRadixTreeAlgorithm.run CompactRadixTreeAlgorithm.Reset vs := by
  constructor
  · intro es r hr hinv
    exact ⟨OrderedEdges.Find_agrees_scan es r hr hinv, IndexedEdges.Find_matches_scan es r hr hinv⟩
  · intro vs hvs
    have hn : ∀ v ∈ vs, v ≠ [] := fun v hv => (hvs v hv).1
    refine ⟨?_, ?_, ?_⟩
    · exact CompactRadixTreeAlgorithm.runWith_eq_run UnorderedEdges.Find
        (fun es r hr hinv => rfl) vs hn _ Node.NoSharedPrefix_nil
    · exact CompactRadixTreeAlgorithm.runWith_eq_run OrderedEdges.Find
        (fun es r hr hinv => OrderedEdges.Find_agrees_scan es r hr hinv) vs hn _
        Node.NoSharedPrefix_nil
    · exact CompactRadixTreeAlgorithm.runWith_eq_run IndexedEdges.Find
        (fun es r hr hinv => IndexedEdges.Find_matches_scan es r hr hinv) vs hn _
        Node.NoSharedPrefix_nil

/-- **C5 witness**: the three `Find`s agree on a concrete invariant
collection, and the three engines agree on a concrete run. -/
theorem C5_strategies_interchangeable_witness :
    ((['1'] : Label) ≠ []
      ∧ EdgesNoSharedPrefix [(['1','2'], Node.mk []), (['3'], Node.mk [])] = true)
    ∧ (OrderedEdges.Find [(['1','2'], Node.mk []), (['3'], Node.mk [])] ['1']
        = UnorderedEdges.Find [(['1','2'], Node.mk []), (['3'], Node.mk [])] ['1']
      ∧ IndexedEdges.Find [(['1','2'], Node.mk []), (['3'], Node.mk [])] ['1']
        = UnorderedEdges.Find [(['1','2'], Node.mk []), (['3'], Node.mk [])] ['1'])
    ∧ (∀ v ∈ [['1','2'], ['1','3'], ['1','2']], v ≠ ([] : Label)
        ∧ v.all Char.isDigit = true)
    ∧ (CompactRadixTreeAlgorithm.runWith UnorderedEdges.Find CompactRadixTreeAlgorithm.Reset
          [['1','2'], ['1','3'], ['1','2']]
        = CompactRadixTreeAlgorithm.run CompactRadixTreeAlgorithm.Reset
          [['1','2'], ['1','3'], ['1','2']]
      ∧ CompactRadixTreeAlgorithm.runWith OrderedEdges.Find CompactRadixTreeAlgorithm.Reset
          [['1','2'], ['1','3'], ['1','2']]
        = CompactRadixTreeAlgorithm.run CompactRadixTreeAlgorithm.Reset
          [['1','2'], ['1','3'], ['1','2']]
      ∧ CompactRadixTreeAlgorithm.runWith IndexedEdges.Find CompactRadixTreeAlgorithm.Reset
          [['1','2'], ['1','3'], ['1','2']]
        = CompactRadixTreeAlgorithm.run CompactRadixTreeAlgorithm.Reset
          [['1','2'], ['1','3'], ['1','2']]) :=
  ⟨⟨by decide, by decide⟩,
    C5_strategies_interchangeable.1 [(['1','2'], Node.mk []), (['3'], Node.mk [])] ['1']
      (by decide) (by decide),
    by decide,
    C5_strategies_interchangeable.2 [['1','2'], ['1','3'], ['1','2']] (by decide)⟩

/-- **C6** (corrected: with mixed-length inputs the engine does create an
empty edge label — see the counterexample; amended to fixed-width
sequences).  On every equal-length run every edge label in the tree is
non-empty, and `Edge::Eat` either leaves an edge's label unchanged (full
match, following the edge) or shortens it to the shared prefix (split); no
other operation rewrites an existing label. -/
theorem C6_labels_nonempty (L : Nat) (hL : 0 < L) (vs : List Label)
    (hvs : ∀ v ∈ vs, v.length = L ∧ v.all Char.isDigit = true) :
    (∀ lab ∈ (CompactRadixTreeAlgorithm.run CompactRadixTreeAlgorithm.Reset vs).2.Labels,
      lab ≠ ([] : Label))
    ∧ ∀ (k : Nat) (e : Edge) (r : Label),
        ((Edge.Eat k e r).1.1 = e.1 ∧ (Edge.Eat k e r).2.2.2 = some e.2)
        ∨ ((Edge.Eat k e r).1.1 = e.1.take k ∧ (Edge.Eat k e r).2.2.2 = none) := by
  constructor
  · exact Node.UniformDepth_labels _ L
      (CompactRadixTreeAlgorithm.run_UniformDepth L hL vs (fun v hv => (hvs v hv).1) _
        (Node.UniformDepth_nil L))
  · intro k e r
    by_cases h : k = e.1.length
    · left
      simp only [Edge.Eat]
      rw [if_pos h]
      exact ⟨rfl, rfl⟩
    · right
      simp only [Edge.Eat]
      rw [if_neg h]
      exact ⟨rfl, rfl⟩

/-- **C6 witness**: a concrete fixed-width run whose tree has only
non-empty labels. -/
theorem C6_labels_nonempty_witness :
    ((0 : Nat) < 2
      ∧ (∀ v ∈ [['1','2'], ['1','3']], v.length = 2 ∧ v.all Char.isDigit = true))
    ∧ ((∀ lab ∈ (CompactRadixTreeAlgorithm.run CompactRadixTreeAlgorithm.Reset
          [['1','2'], ['1','3']]).2.Labels, lab ≠ ([] : Label))
      ∧ ∀ (k : Nat) (e : Edge) (r : Label),
          ((Edge.Eat k e r).1.1 = e.1 ∧ (Edge.Eat k e r).2.2.2 = some e.2)
          ∨ ((Edge.Eat k e r).1.1 = e.1.take k ∧ (Edge.Eat k e r).2.2.2 = none)) :=
  ⟨⟨by decide, by decide⟩, C6_labels_nonempty 2 (by decide) [['1','2'], ['1','3']] (by decide)⟩

/-- **C6 counterexample**: after `is_unique "12"` then `is_unique "1"` —
both non-empty digit strings — the tree contains an edge with an empty
label (splitting `"12"` against `"1"` makes the remainder of the inserted
suffix empty). -/
theorem C6_counterexample :
    (∀ u ∈ [['1','2'], ['1']], u ≠ ([] : Label) ∧ u.all Char.isDigit = true)
    ∧ ([] : Label) ∈ (CompactRadixTreeAlgorithm.run CompactRadixTreeAlgorithm.Reset
        [['1','2'], ['1']]).2.Labels := by
  refine ⟨by decide, ?_⟩
  simp [CompactRadixTreeAlgorithm.run, CompactRadixTreeAlgorithm.IsUnique,
    CompactRadixTreeAlgorithm.Reset, Node.EatAll_cons, Node.EatAll_nil, Node.edges,
    GetNumCommonChars, Node.Labels_cons, Node.Labels_nil]

/-- **C7**: permuting an equal-length input sequence does not change the
number of `true` results of a fresh engine. -/
theorem C7_permutation_count (L : Nat) (hL : 0 < L) (vs vs2 : List Label)
    (hvs : ∀ v ∈ vs, v.length = L ∧ v.all Char.isDigit = true) (hperm : vs.Perm vs2) :
    CountTrue (CompactRadixTreeAlgorithm.run CompactRadixTreeAlgorithm.Reset vs).1
      = CountTrue (CompactRadixTreeAlgorithm.run CompactRadixTreeAlgorithm.Reset vs2).1 := by
  have h1 : ∀ v ∈ vs, v.length = L := fun v hv => (hvs v hv).1
  have h2 : ∀ v ∈ vs2, v.length = L := fun v hv => h1 v (hperm.mem_iff.mpr hv)
  rw [CompactRadixTreeAlgorithm.run_distinct_count L hL vs h1,
    CompactRadixTreeAlgorithm.run_distinct_count L hL vs2 h2, List.toFinset_eq_of_perm vs vs2 hperm]

/-- **C7 witness**: two orderings of a concrete multiset. -/
theorem C7_permutation_count_witness :
    ((0 : Nat) < 1
      ∧ (∀ v ∈ [['1'], ['2'], ['1']], v.length = 1 ∧ v.all Char.isDigit = true)
      ∧ List.Perm [['1'], ['2'], ['1']] [['1'], ['1'], ['2']])
    ∧ CountTrue (CompactRadixTreeAlgorithm.run CompactRadixTreeAlgorithm.Reset
        [['1'], ['2'], ['1']]).1
      = CountTrue (CompactRadixTreeAlgorithm.run CompactRadixTreeAlgorithm.Reset
        [['1'], ['1'], ['2']]).1 :=
  ⟨⟨by decide, by decide, by decide⟩,
    C7_permutation_count 1 (by decide) [['1'], ['2'], ['1']] [['1'], ['1'], ['2']]
      (by decide) (by decide)⟩

/-- **C8**: constructing the wrapper with a null detector or a zero expected
digit length raises before any insertion (the error is returned before the
detector is reset or consulted); `process` raises — without forwarding to
the detector or changing the count — exactly when the value's length differs
from the expected digit count or a character is not a digit, and otherwise
forwards to `is_unique` and increments the count exactly when it returns
`true`. -/
theorem C8_wrapper_validation (σ : Type) (ops : AlgorithmOps σ) (st : σ) (n : Nat)
    (counter : UniqueNumberCounter σ) (number : Label) :
    UniqueNumberCounter.Construct (σ := σ) none n = .error "NULL ptr"
    ∧ UniqueNumberCounter.Construct (some (ops, st)) n
        = (if n = 0 then .error "numExpectedDigits cannot be zero"
           else .ok ⟨n, ops, ops.Reset st, 0⟩)
    ∧ ((∃ msg, counter.ProcessNumber number = .error msg)
        ↔ (number.length ≠ counter.NumExpectedDigits ∨ ¬number.all Char.isDigit = true))
    ∧ counter.ProcessNumber number
        = (if number.length ≠ counter.NumExpectedDigits then .error "Invalid number of digits"
           else if number.all Char.isDigit then
             .ok { counter with
                AlgorithmState := (counter.Algorithm.IsUnique counter.AlgorithmState number).1
                Count := if (counter.Algorithm.IsUnique counter.AlgorithmState number).2
                  then counter.Count + 1 else counter.Count }
           else .error "Not a number") := by
  have heq : counter.ProcessNumber number
      = (if number.length ≠ counter.NumExpectedDigits then .error "Invalid number of digits"
         else if number.all Char.isDigit then
           .ok { counter with
              AlgorithmState := (counter.Algorithm.IsUnique counter.AlgorithmState number).1
              Count := if (counter.Algorithm.IsUnique counter.AlgorithmState number).2
                then counter.Count + 1 else counter.Count }
         else .error "Not a number") := by
    simp only [UniqueNumberCounter.ProcessNumber, UniqueNumberCounter.CheckNumber]
    by_cases h1 : number.length ≠ counter.NumExpectedDigits
    · rw [if_pos h1, if_pos h1]
    · rw [if_neg h1, if_neg h1]
      by_cases h2 : number.all Char.isDigit = true
      · rw [if_pos h2, if_pos h2]
      · rw [if_neg h2, if_neg h2]
  refine ⟨rfl, rfl, ?_, heq⟩
  rw [heq]
  by_cases h1 : number.length ≠ counter.NumExpectedDigits
  · rw [if_pos h1]
    simp [h1]
  · rw [if_neg h1]
    by_cases h2 : number.all Char.isDigit = true
    · rw [if_pos h2]
      simp [h1, h2]
    · rw [if_neg h2]
      simp [h1, h2]

/-- **C9**: running any sequence of non-empty digit strings through the
engine with every `RaiseError` branch made explicit raises no error: the
argument checks of `GetNumCommonChars`, `Edge::Eat` (empty remainder,
zero or out-of-range shared-prefix count) and `Node::Eat` are unreachable,
and the checked run returns exactly the unchecked run's results. -/
theorem C9_no_raise (vs : List Label)
    (hvs : ∀ v ∈ vs, v ≠ ([] : Label) ∧ v.all Char.isDigit = true) :
    CompactRadixTreeAlgorithm.runE CompactRadixTreeAlgorithm.Reset vs
      = .ok (CompactRadixTreeAlgorithm.run CompactRadixTreeAlgorithm.Reset vs) :=
  CompactRadixTreeAlgorithm.runE_ok vs _ (fun v hv => (hvs v hv).1)

/-- **C9 witness**: a concrete run exercising the split, append, full-match
and duplicate paths raises no error. -/
theorem C9_no_raise_witness :
    (∀ v ∈ [['1','2'], ['1','3'], ['1'], ['1','2']], v ≠ ([] : Label)
      ∧ v.all Char.isDigit = true)
    ∧ CompactRadixTreeAlgorithm.runE CompactRadixTreeAlgorithm.Reset
        [['1','2'], ['1','3'], ['1'], ['1','2']]
      = .ok (CompactRadixTreeAlgorithm.run CompactRadixTreeAlgorithm.Reset
        [['1','2'], ['1','3'], ['1'], ['1','2']]) :=
  ⟨by decide, C9_no_raise [['1','2'], ['1','3'], ['1'], ['1','2']] (by decide)⟩

/-- **C10**: on the empty string the two detectors disagree: the radix-tree
engine returns `false` and leaves the tree unchanged in every state, while
the set baseline returns `true` exactly when the empty string has not been
inserted since the last reset (so `true` the first time, `false`
thereafter). -/
theorem C10_empty_value_disagreement (t : Node) (ps : List Label) :
    CompactRadixTreeAlgorithm.IsUnique t [] = (t, false)
    ∧ ((SetAlgorithm.IsUnique (SetAlgorithm.run SetAlgorithm.Reset ps).2 []).2 = true
        ↔ ([] : Label) ∉ ps) := by
  refine ⟨rfl, ?_⟩
  rw [SetAlgorithm.IsUnique]
  by_cases hm : ([] : Label) ∈ (SetAlgorithm.run SetAlgorithm.Reset ps).2
  · rw [if_pos hm]
    have hp : ([] : Label) ∈ ps := by
      rcases (SetAlgorithm.run_mem _ ps []).mp hm with h | h
      · rw [SetAlgorithm.Reset] at h
        cases h
      · exact h
    simp [hp]
  · rw [if_neg hm]
    have hp : ([] : Label) ∉ ps :=
      fun hc => hm ((SetAlgorithm.run_mem _ ps []).mpr (Or.inr hc))
    simp [hp]
